import Mathlib

/-!
# cli-minesweeper: the game engine of `minesweeper.c`

A shallow embedding of the C program and the proofs of its specification.

Conventions of the embedding.

* The globals `g_width`, `g_height`, `g_gridsize`, the cursor and every array index
  are natural numbers: the program only ever stores non-negative values there, and
  every subtraction `e - 1` of the source is guarded by `e > 0` or compared with a
  non-negative value, so truncated subtraction agrees with C.
* `g_minecount` and `g_flagged` are C `int`s and are integers here.
* The arrays `g_grid` and `g_state` are lists whose length is the size of the
  allocation.  A cell of `g_grid` is the code of its character.  Reading outside the
  allocation is undefined in C; `List.getD` returns a fixed value there and the
  theorems are stated for indices inside the grid.
* `rand()`, `getch()` and `time()` are inputs: the machine state carries the list of
  values `rand()` will return, the list of keys `getch()` will return and the value
  of the clock.  What `lose()` and `win()` print is appended to a log.
* The recursion of `show` is bounded by a fuel argument; the termination theorems
  show that a fuel above the number of hidden cells is always enough on a grid
  whose blank cells have no mine next to them.
-/

namespace Minesweeper

/-! ## Constants and enumerations -/

def MIN_WIDTH : Int := 9
def MAX_WIDTH : Int := 39
def MIN_HEIGHT : Int := 9
def MAX_HEIGHT : Int := 20
def MIN_MINES : Int := 1

/-- The macro `MAX_MINES`, `((g_width * g_height) / 2)`, with the division of C. -/
def MAX_MINES (g_width g_height : Int) : Int := Int.tdiv (g_width * g_height) 2

inductive gamemode_t
  | MODE_UNKNOWN
  | MODE_EASY
  | MODE_MEDIUM
  | MODE_HARD
  | MODE_CUSTOM
  deriving DecidableEq, Repr

inductive state_t
  | STATE_HIDDEN
  | STATE_VISIBLE
  | STATE_FLAG
  | STATE_UNSURE
  deriving DecidableEq, Repr

open gamemode_t state_t

/-- The character `'*'`: a mine. -/
def MINE : Nat := 42
/-- The character `'0'`. -/
def ZERO : Nat := 48
/-- The character `' '`: a cell with no mine around it. -/
def BLANK : Nat := 32

/-! ## Argument parsing and the configuration (`main`, `parseint`) -/

/-- The function `parseint`, applied to the value `o` that `strtol` returned.
`CHAR_MAX` comes from `limits.h` and is a parameter. -/
def parseint (CHAR_MAX : Int) (o : Int) : Int :=
  if o < 1 then 1
  else if o > CHAR_MAX then CHAR_MAX
  else o

/-- The globals that `main` sets before the grid is allocated. -/
structure Settings where
  g_mode : gamemode_t
  g_width : Int
  g_height : Int
  g_minecount : Int
  g_wants_color : Int
  deriving DecidableEq, Repr

/-- The initial values of the globals. -/
def Settings.initial : Settings :=
  { g_mode := MODE_UNKNOWN, g_width := 9, g_height := 9, g_minecount := 10,
    g_wants_color := 1 }

/-- One result of `getopt_long`: a long option that stores a mode or a colour
choice through its flag pointer (return code 0), one of `-w`, `-h`, `-m` with the
value `strtol` reads from its argument, or `?`. -/
inductive getopt_t
  | long_mode (m : gamemode_t)
  | long_color (v : Int)
  | opt_w (o : Int)
  | opt_h (o : Int)
  | opt_m (o : Int)
  | opt_help
  deriving DecidableEq, Repr

/-- The body of the option loop of `main` for one option; `none` when `help`
ends the process. -/
def main_option (CHAR_MAX : Int) (s : Settings) : getopt_t → Option Settings
  | .long_mode m => some { s with g_mode := m }
  | .long_color v => some { s with g_wants_color := v }
  | .opt_w o => some { s with g_mode := MODE_CUSTOM, g_width := parseint CHAR_MAX o }
  | .opt_h o => some { s with g_mode := MODE_CUSTOM, g_height := parseint CHAR_MAX o }
  | .opt_m o => some { s with g_mode := MODE_CUSTOM, g_minecount := parseint CHAR_MAX o }
  | .opt_help => none

/-- The option loop of `main`. -/
def main_options (CHAR_MAX : Int) : List getopt_t → Settings → Option Settings
  | [], s => some s
  | o :: os, s =>
    match main_option CHAR_MAX s o with
    | none => none
    | some s1 => main_options CHAR_MAX os s1

/-- The `switch(g_mode)` of `main` that fixes width, height and mine count. -/
def main_mode (s : Settings) : Settings :=
  match s.g_mode with
  | MODE_HARD => { s with g_width := 30, g_height := 16, g_minecount := 99 }
  | MODE_MEDIUM => { s with g_width := 16, g_height := 16, g_minecount := 40 }
  | MODE_EASY => { s with g_width := 9, g_height := 9, g_minecount := 10 }
  | MODE_UNKNOWN => { s with g_width := 9, g_height := 9, g_minecount := 10 }
  | MODE_CUSTOM =>
    let w : Int :=
      if s.g_width > MAX_WIDTH then MAX_WIDTH
      else if s.g_width < MIN_WIDTH then MIN_WIDTH
      else s.g_width
    let h : Int :=
      if s.g_height > MAX_HEIGHT then MAX_HEIGHT
      else if s.g_height < MIN_HEIGHT then MIN_HEIGHT
      else s.g_height
    let n : Int :=
      if s.g_minecount > MAX_MINES w h then MAX_MINES w h
      else if s.g_minecount < MIN_MINES then MIN_MINES
      else s.g_minecount
    { s with g_width := w, g_height := h, g_minecount := n }

/-- The configuration with which `main` reaches `initGame`: the option loop
followed by the mode switch. -/
def main_settings (CHAR_MAX : Int) (opts : List getopt_t) : Option Settings :=
  (main_options CHAR_MAX opts Settings.initial).map main_mode

/-! ## The machine state -/

/-- A value returned by `getch`: one of the curses key codes the game loop tests,
or a character code.  The curses codes are above every character code. -/
inductive key_t
  | KEY_UP
  | KEY_DOWN
  | KEY_LEFT
  | KEY_RIGHT
  | KEY_ENTER
  | chr (c : Nat)
  deriving DecidableEq, Repr

/-- What `print_grid_final` draws: the grid, the visibility of every cell and the
cursor. -/
structure Screen where
  grid : List Nat
  state : List state_t
  selx : Nat
  sely : Nat
  deriving DecidableEq, Repr

/-- A message of the program to the player: `lose` or `win` was called and drew
the final grid. -/
inductive Event
  | lost (v : Screen)
  | won (v : Screen)
  deriving DecidableEq, Repr

/-- The globals of the program, followed by its environment: the values `rand()`
and `getch()` will return, the clock read by `time()`, and the log of `lose` and
`win` messages. -/
structure Machine where
  g_width : Nat
  g_height : Nat
  g_minecount : Int
  g_gridsize : Nat
  g_grid : List Nat
  g_state : List state_t
  g_selx : Nat
  g_sely : Nat
  g_flagged : Int
  g_starttime : Nat
  rands : List Nat
  keys : List key_t
  now : Nat
  log : List Event
  deriving DecidableEq, Repr

/-- How a call ends: it returns, the process exits (`cleanup` calls `exit(0)`), or
it never returns (it waits for a key that does not come, or the placement loop has
used every random number without finishing). -/
inductive Outcome
  | ret (m : Machine)
  | halt (m : Machine)
  | stuck (m : Machine)
  deriving DecidableEq, Repr

/-- The machine state an outcome carries. -/
def Outcome.machine : Outcome → Machine
  | .ret m => m
  | .halt m => m
  | .stuck m => m

/-- Sequencing: the next call runs only when the first returned. -/
def Outcome.andThen (o : Outcome) (f : Machine → Outcome) : Outcome :=
  match o with
  | .ret m => f m
  | .halt m => .halt m
  | .stuck m => .stuck m

/-- The call `memset(p, c, n)` on an array. -/
def memset {α : Type} (p : List α) (c : α) (n : Nat) : List α :=
  List.replicate n c ++ p.drop n

/-! ## Grid generation (`initGame`, `getrand`) -/

/-- The function `getrand`, applied to the value `r` that `rand()` returned; the
remainder by zero is undefined. -/
def getrand (max : Nat) (r : Nat) : Option Nat :=
  if max = 0 then none else some (r % max)

/-- The cells around `j` that pass the bounds checks of `initGame`, in the order
in which the source visits them. -/
def mineTargets (g_width g_height j : Nat) : List Nat :=
  let x := j % g_width
  let y := j / g_width
  (if x > 0 then
    (if y > 0 then [(y - 1) * g_width + x - 1] else []) ++
    [y * g_width + x - 1] ++
    (if y < g_height - 1 then [(y + 1) * g_width + x - 1] else [])
   else []) ++
  (if x < g_width - 1 then
    (if y > 0 then [(y - 1) * g_width + x + 1] else []) ++
    [y * g_width + x + 1] ++
    (if y < g_height - 1 then [(y + 1) * g_width + x + 1] else [])
   else []) ++
  (if y > 0 then [(y - 1) * g_width + x] else []) ++
  (if y < g_height - 1 then [(y + 1) * g_width + x] else [])

/-- The statement `if(g_grid[k] != '*') g_grid[k]++;` on a `char` cell. -/
def bump (grid : List Nat) (k : Nat) : List Nat :=
  if grid.getD k 0 ≠ MINE then grid.set k ((grid.getD k 0 + 1) % 256) else grid

/-- The body of the placement loop for the drawn index `j`: the grid and the
number `i` of mines placed after it. -/
def placeStep (g_width g_height : Nat) (grid : List Nat) (i : Int) (j : Nat) :
    List Nat × Int :=
  if grid.getD j 0 = MINE then (grid, i)
  else ((mineTargets g_width g_height j).foldl bump (grid.set j MINE), i + 1)

/-- The loop `while(i < g_minecount)` of `initGame`, run on the values `rand()`
returns.  It yields the grid, the counter `i` and the unused random values; it
stops without finishing when the random values are used up. -/
def placeMines (g_width g_height g_gridsize : Nat) (g_minecount : Int) :
    List Nat → List Nat → Int → List Nat × Int × List Nat
  | [], grid, i => (grid, i, [])
  | r :: rs, grid, i =>
    if i < g_minecount then
      match getrand g_gridsize r with
      | none => (grid, i, r :: rs)
      | some j =>
        placeMines g_width g_height g_gridsize g_minecount rs
          (placeStep g_width g_height grid i j).1 (placeStep g_width g_height grid i j).2
    else (grid, i, r :: rs)

/-- The loop `for(i = 0; i < g_gridsize; i++) if(g_grid[i] == '0') g_grid[i] = ' ';`
with `n` iterations left. -/
def blankZeros : Nat → Nat → List Nat → List Nat
  | 0, _, grid => grid
  | n + 1, i, grid =>
    blankZeros n (i + 1) (if grid.getD i 0 = ZERO then grid.set i BLANK else grid)

/-- The function `initGame`. -/
def initGame (m : Machine) : Outcome :=
  let m1 : Machine :=
    { m with
      g_selx := m.g_width / 2
      g_sely := m.g_height / 2
      g_flagged := 0
      g_grid := memset m.g_grid ZERO m.g_gridsize
      g_state := memset m.g_state STATE_HIDDEN m.g_gridsize }
  match placeMines m1.g_width m1.g_height m1.g_gridsize m1.g_minecount m1.rands m1.g_grid 0 with
  | (grid, i, rands) =>
    if i < m1.g_minecount then .stuck { m1 with g_grid := grid, rands := rands }
    else
      .ret { m1 with
        g_grid := blankZeros m1.g_gridsize 0 grid
        rands := rands
        g_starttime := 0 }

/-! ## Win and loss (`cleanup`, `lose`, `win`, `check_win`) -/

/-- The function `cleanup`: it ends the process. -/
def cleanup (m : Machine) : Outcome := .halt m

/-- The final grid as `print_grid_final` draws it. -/
def print_grid_final (m : Machine) : Screen :=
  { grid := m.g_grid, state := m.g_state, selx := m.g_selx, sely := m.g_sely }

/-- The test `if(getch() == 'q') cleanup();` that ends `lose` and `win`. -/
def continue_or_quit (m : Machine) : Outcome :=
  match m.keys with
  | [] => .stuck m
  | k :: ks => if k = key_t.chr 113 then cleanup { m with keys := ks } else .ret { m with keys := ks }

/-- The function `lose`. -/
def lose (m : Machine) : Outcome :=
  continue_or_quit { m with log := m.log ++ [Event.lost (print_grid_final m)] }

/-- The function `win`. -/
def win (m : Machine) : Outcome :=
  continue_or_quit { m with log := m.log ++ [Event.won (print_grid_final m)] }

/-- The loop of `check_win` with `n` iterations left, at index `i`. -/
def check_win_loop (m : Machine) : Nat → Nat → Bool
  | 0, _ => true
  | n + 1, i =>
    if m.g_grid.getD i 0 ≠ MINE ∧ m.g_state.getD i STATE_VISIBLE ≠ STATE_VISIBLE then false
    else check_win_loop m n (i + 1)

/-- The function `check_win`. -/
def check_win (m : Machine) : Bool := check_win_loop m m.g_gridsize 0

/-! ## Revealing and flagging (`show`, `flag`) -/

/-- The arguments of the recursive calls `show` makes for a blank cell `idx`, in
the order of the source: the bounds checks are those of the source. -/
def showTargets (g_width g_height idx : Nat) : List Nat :=
  let x := idx % g_width
  let y := idx / g_width
  [g_width * y + x] ++
  (if y > 0 then [g_width * (y - 1) + x] else []) ++
  (if y < g_height - 1 then [g_width * (y + 1) + x] else []) ++
  (if x > 0 then
    [g_width * y + x - 1] ++
    (if y > 0 then [g_width * (y - 1) + x - 1] else []) ++
    (if y < g_height - 1 then [g_width * (y + 1) + x - 1] else [])
   else []) ++
  (if x < g_width - 1 then
    [g_width * y + x + 1] ++
    (if y > 0 then [g_width * (y - 1) + x + 1] else []) ++
    (if y < g_height - 1 then [g_width * (y + 1) + x + 1] else [])
   else [])

/-- A sequence of calls `f(k)`, one after the other; the sequence ends early when
a call does not return. -/
def callEach (f : Machine → Nat → Option Outcome) : List Nat → Machine → Option Outcome
  | [], m => some (.ret m)
  | k :: ks, m =>
    match f m k with
    | some (.ret m1) => callEach f ks m1
    | r => r

/-- The function `show` (a reserved word of Lean, hence the name).  The first
argument bounds the depth of the recursion: `none` means it was not enough. -/
def show_idx : Nat → Machine → Nat → Option Outcome
  | 0, _, _ => none
  | fuel + 1, m, idx =>
    let chr := m.g_grid.getD idx 0
    if m.g_state.getD idx STATE_VISIBLE = STATE_HIDDEN then
      let m1 : Machine := { m with g_state := m.g_state.set idx STATE_VISIBLE }
      if chr = MINE then some ((lose m1).andThen initGame)
      else if chr = BLANK then
        callEach (show_idx fuel) (showTargets m.g_width m.g_height idx) m1
      else some (.ret m1)
    else some (.ret m)

/-- The function `flag`. -/
def flag (m : Machine) (idx : Nat) : Machine :=
  if m.g_state.getD idx STATE_VISIBLE = STATE_HIDDEN then
    { m with g_flagged := m.g_flagged + 1, g_state := m.g_state.set idx STATE_FLAG }
  else if m.g_state.getD idx STATE_VISIBLE = STATE_FLAG then
    { m with g_flagged := m.g_flagged - 1, g_state := m.g_state.set idx STATE_HIDDEN }
  else m

/-! ## The game loop (`runGame`) -/

/-- The macro `SEL2IDX`. -/
def SEL2IDX (m : Machine) : Nat := m.g_selx + m.g_sely * m.g_width

/-- The `switch(c)` of `runGame`; the characters are `'f'` (102), `'c'` (99) and
`' '` (32). -/
def runGame_switch (fuel : Nat) (m : Machine) : key_t → Option Outcome
  | .KEY_UP => some (.ret (if m.g_sely > 0 then { m with g_sely := m.g_sely - 1 } else m))
  | .KEY_DOWN =>
    some (.ret (if m.g_sely < m.g_height - 1 then { m with g_sely := m.g_sely + 1 } else m))
  | .KEY_LEFT => some (.ret (if m.g_selx > 0 then { m with g_selx := m.g_selx - 1 } else m))
  | .KEY_RIGHT =>
    some (.ret (if m.g_selx < m.g_width - 1 then { m with g_selx := m.g_selx + 1 } else m))
  | .KEY_ENTER => show_idx fuel m (SEL2IDX m)
  | .chr c =>
    if c = 102 then some (.ret (flag m (SEL2IDX m)))
    else if c = 99 ∨ c = 32 then show_idx fuel m (SEL2IDX m)
    else some (.ret m)

/-- One iteration of the `do ... while(1)` loop of `runGame`.  The outcome `ret`
means the loop goes on with that state; leaving the loop with `'q'` (113) returns
to `main`, which calls `cleanup`. -/
def runGame_iter (fuel : Nat) (m : Machine) : Option Outcome :=
  match (if check_win m then (win m).andThen initGame else .ret m) with
  | .ret m1 =>
    match m1.keys with
    | [] => some (.stuck m1)
    | c :: ks =>
      let m2 : Machine := { m1 with keys := ks }
      if c = key_t.chr 113 then some (cleanup m2)
      else
        let m3 : Machine := if m2.g_starttime = 0 then { m2 with g_starttime := m2.now } else m2
        runGame_switch fuel m3 c
  | o => some o

/-- The part of an iteration of the loop of `runGame` that reads a key and handles
it, from `getch` to the end of the `switch`, in the state `m1` the win test left. -/
def runGame_key (fuel : Nat) (m1 : Machine) : Option Outcome :=
  match m1.keys with
  | [] => some (.stuck m1)
  | c :: ks =>
    let m2 : Machine := { m1 with keys := ks }
    if c = key_t.chr 113 then some (cleanup m2)
    else
      let m3 : Machine := if m2.g_starttime = 0 then { m2 with g_starttime := m2.now } else m2
      runGame_switch fuel m3 c

/-! ## The vocabulary of the specification -/

/-- Clamping a value into the interval from `lo` to `hi`. -/
def clamp (lo hi v : Int) : Int := max lo (min hi v)

/-- The cells `c` and `d` are lattice neighbours on a grid of width `w`: they are
distinct, their columns differ by at most 1 and their rows differ by at most 1. -/
def nbr (w c d : Nat) : Prop :=
  d ≠ c ∧ (c % w ≤ d % w + 1 ∧ d % w ≤ c % w + 1) ∧ (c / w ≤ d / w + 1 ∧ d / w ≤ c / w + 1)

instance nbr_decidable (w c d : Nat) : Decidable (nbr w c d) := by
  unfold nbr
  infer_instance

/-- The number of mines among the lattice neighbours of `c` inside the grid. -/
def mineNeighbours (w : Nat) (grid : List Nat) (c : Nat) : Nat :=
  (List.range grid.length).countP (fun d => decide (nbr w c d ∧ grid.getD d 0 = MINE))

/-- The number of mines in the grid. -/
def mineCells (grid : List Nat) : Nat :=
  (List.range grid.length).countP (fun d => decide (grid.getD d 0 = MINE))

/-- The character of a cell that is not a mine and has `k` mines around it. -/
def cellChar (k : Nat) : Nat := if k = 0 then BLANK else ZERO + k

/-- The invariant of the placement loop: every cell that is not a mine holds `'0'`
plus the number of mines around it, and `i` counts the mines. -/
def PlaceInv (w h : Nat) (grid : List Nat) (i : Int) : Prop :=
  grid.length = w * h ∧
  (∀ c, c < w * h → grid.getD c 0 ≠ MINE → grid.getD c 0 = ZERO + mineNeighbours w grid c) ∧
  (mineCells grid : Int) = i

/-- The adjacency invariant of a grid: it fills the `g_width * g_height` cells, and
every cell that is not a mine shows the number of mines around it. -/
def AdjInvariant (m : Machine) : Prop :=
  m.g_gridsize = m.g_width * m.g_height ∧ m.g_grid.length = m.g_gridsize ∧
  ∀ c, c < m.g_gridsize → m.g_grid.getD c 0 ≠ MINE →
    m.g_grid.getD c 0 = cellChar (mineNeighbours m.g_width m.g_grid c)

/-- The number of cells of the grid whose visibility is `STATE_FLAG`. -/
def flagCount (m : Machine) : Nat :=
  (List.range m.g_gridsize).countP (fun c => decide (m.g_state.getD c STATE_VISIBLE = STATE_FLAG))

/-- What `main` has set up when it calls `initGame`: positive dimensions and two
arrays of `g_gridsize = g_width * g_height` cells. -/
def Allocated (m : Machine) : Prop :=
  0 < m.g_width ∧ 0 < m.g_height ∧ m.g_gridsize = m.g_width * m.g_height ∧
  m.g_grid.length = m.g_gridsize ∧ m.g_state.length = m.g_gridsize

/-- The states of a session: those `initGame` returns at start-up and those the
iterations of the game loop lead to. -/
inductive Reachable : Machine → Prop
  | start (m0 m : Machine) : Allocated m0 → initGame m0 = Outcome.ret m → Reachable m
  | iter (fuel : Nat) (m m1 : Machine) :
      Reachable m → runGame_iter fuel m = some (Outcome.ret m1) → Reachable m1

/-- The invariant of a session. -/
def SessionInv (m : Machine) : Prop :=
  Allocated m ∧ m.g_selx < m.g_width ∧ m.g_sely < m.g_height ∧
  m.g_flagged = (flagCount m : Int)

/-- No blank cell has a mine next to it. -/
def NoMineNearBlank (w size : Nat) (grid : List Nat) : Prop :=
  ∀ c d, c < size → grid.getD c 0 = BLANK → d < size → nbr w c d → grid.getD d 0 ≠ MINE

/-- The number of hidden cells of the grid. -/
def hiddenCount (size : Nat) (st : List state_t) : Nat :=
  (List.range size).countP (fun c => decide (st.getD c STATE_VISIBLE = STATE_HIDDEN))

/-- The cells the flood fill can reach from `idx`: the ends of the paths of
neighbouring cells that start at `idx` and on which every cell but the last is
blank and hidden. -/
inductive FloodReach (w size : Nat) (grid : List Nat) (st : List state_t) (idx : Nat) :
    Nat → Prop
  | base : FloodReach w size grid st idx idx
  | step (c d : Nat) : FloodReach w size grid st idx c → grid.getD c 0 = BLANK →
      st.getD c STATE_VISIBLE = STATE_HIDDEN → d < size → nbr w c d →
      FloodReach w size grid st idx d

/-- From `st` to `st1` cells only go from hidden to visible. -/
def Mono (st st1 : List state_t) : Prop :=
  ∀ c, st1.getD c STATE_VISIBLE = st.getD c STATE_VISIBLE ∨
    (st.getD c STATE_VISIBLE = STATE_HIDDEN ∧ st1.getD c STATE_VISIBLE = STATE_VISIBLE)

/-- Every blank cell that changed from `st` to `st1` has no hidden neighbour left. -/
def Closed (w size : Nat) (grid : List Nat) (st st1 : List state_t) : Prop :=
  ∀ c, st1.getD c STATE_VISIBLE ≠ st.getD c STATE_VISIBLE → grid.getD c 0 = BLANK →
    ∀ d, d < size → nbr w c d → st1.getD d STATE_VISIBLE ≠ STATE_HIDDEN

/-- What a flood fill started at the cells of `T` leaves: cells only went from
hidden to visible, the cells of `T` are not hidden, every changed cell is reached
from `T`, and every changed blank cell has no hidden neighbour. -/
def FloodOK (w size : Nat) (grid : List Nat) (st st1 : List state_t) (T : List Nat) : Prop :=
  Mono st st1 ∧ Closed w size grid st st1 ∧
  (∀ k, k ∈ T → st1.getD k STATE_VISIBLE ≠ STATE_HIDDEN) ∧
  (∀ c, st1.getD c STATE_VISIBLE ≠ st.getD c STATE_VISIBLE →
    ∃ k, k ∈ T ∧ FloodReach w size grid st k c)

/-- The grid facts the flood fill relies on. -/
def GridOK (m : Machine) : Prop :=
  m.g_gridsize = m.g_width * m.g_height ∧ NoMineNearBlank m.g_width m.g_gridsize m.g_grid

/-- The maximal 8-connected region of blank cells that contains `idx`: the blank
cells joined to `idx` by a path of neighbouring blank cells. -/
inductive BlankRegion (m : Machine) (idx : Nat) : Nat → Prop
  | base : idx < m.g_gridsize → m.g_grid.getD idx 0 = BLANK → BlankRegion m idx idx
  | step (c d : Nat) : BlankRegion m idx c → d < m.g_gridsize → nbr m.g_width c d →
      m.g_grid.getD d 0 = BLANK → BlankRegion m idx d

/-- The region of `idx` together with the numbered cells next to it. -/
def RevealSet (m : Machine) (idx c : Nat) : Prop :=
  BlankRegion m idx c ∨
  ∃ b, BlankRegion m idx b ∧ nbr m.g_width b c ∧ c < m.g_gridsize ∧
    m.g_grid.getD c 0 ≠ BLANK ∧ m.g_grid.getD c 0 ≠ MINE

/-- A new game starts from `m` and `initGame` returns `m1`: `initGame` is called
at start-up, or after `lose`, or after `win`. -/
def StartsGame (m m1 : Machine) : Prop :=
  initGame m = Outcome.ret m1 ∨ (lose m).andThen initGame = Outcome.ret m1 ∨
  (win m).andThen initGame = Outcome.ret m1

/-- The cell indices `getrand` draws from the values `rand()` returns. -/
def drawnCells (size : Nat) (rands : List Nat) : Finset Nat :=
  (rands.filterMap (getrand size)).toFinset

/-- Whether a call returned. -/
def Outcome.returned : Outcome → Bool
  | .ret _ => true
  | _ => false

/-- Modelled from the spec: the RandomSource, `uniform(max) -> int in [0,max)`,
stands for `rand()`, which is not in the repository.  A sequence `f` of `n` draws
among `size` cells is one of `size ^ n` equally likely ones; `drawList f` is the
values `rand()` returns for it. -/
def drawList {size n : Nat} (f : Fin n → Fin size) : List Nat :=
  List.ofFn (fun i => (f i).val)

/-- The sequences of `n` draws after which the placement loop of `initGame` has not
finished: `initGame` does not return on them. -/
def stalled (m : Machine) (n : Nat) : Finset (Fin n → Fin m.g_gridsize) :=
  Finset.univ.filter
    (fun f => (initGame { m with rands := drawList f }).returned = false)

/-- The result of `check_win` after a call that returned. -/
def checkWinAfter (r : Option Outcome) : Option Bool :=
  match r with
  | some (.ret m) => some (check_win m)
  | _ => none

/-! ## Concrete boards -/

/-- A 3 by 3 board as `main` would allocate it, with two mines to place, the random
values 0, 9, 8 and the keys `f`, left, `c`. -/
def demoBoot : Machine :=
  { g_width := 3, g_height := 3, g_minecount := 2, g_gridsize := 9,
    g_grid := List.replicate 9 0, g_state := List.replicate 9 STATE_FLAG,
    g_selx := 0, g_sely := 0, g_flagged := 3, g_starttime := 7,
    rands := [0, 9, 8], keys := [key_t.chr 102, key_t.KEY_LEFT, key_t.chr 99],
    now := 5, log := [] }

/-- The game `initGame` generates from `demoBoot`: the second draw falls on the
first mine and is discarded, the mines are in two opposite corners. -/
def demoGame : Machine :=
  { demoBoot with
    g_selx := 1, g_sely := 1, g_flagged := 0, g_starttime := 0, rands := []
    g_grid := [42, 49, 32,
               49, 50, 49,
               32, 49, 42]
    g_state := List.replicate 9 STATE_HIDDEN }

/-- The state of `demoGame` after the key `f`: the centre cell is flagged. -/
def demoFlagged : Machine :=
  { demoGame with
    keys := [key_t.KEY_LEFT, key_t.chr 99], g_starttime := 5, g_flagged := 1
    g_state := (List.replicate 9 STATE_HIDDEN).set 4 STATE_FLAG }

/-- A 9 by 9 board with 10 mines to place, as the easy mode allocates it. -/
def easyBoot : Machine :=
  { g_width := 9, g_height := 9, g_minecount := 10, g_gridsize := 81,
    g_grid := List.replicate 81 0, g_state := List.replicate 81 STATE_HIDDEN,
    g_selx := 0, g_sely := 0, g_flagged := 0, g_starttime := 0,
    rands := [0, 0, 8, 80, 72, 40, 41, 10, 100, 33, 34], keys := [], now := 5, log := [] }

/-- The game `initGame` generates from `easyBoot`. -/
def easyGame : Machine :=
  { easyBoot with
    g_selx := 4, g_sely := 4, rands := []
    g_grid := [42, 50, 49, 32, 32, 32, 32, 49, 42,
               51, 42, 50, 32, 32, 32, 32, 49, 49,
               50, 42, 50, 32, 32, 49, 50, 50, 49,
               49, 49, 49, 49, 50, 51, 42, 42, 49,
               32, 32, 32, 49, 42, 42, 51, 50, 49,
               32, 32, 32, 49, 50, 50, 49, 32, 32,
               32, 32, 32, 32, 32, 32, 32, 32, 32,
               49, 49, 32, 32, 32, 32, 32, 49, 49,
               42, 49, 32, 32, 32, 32, 32, 49, 42] }

/-- A 9 by 9 board with 10 mines to place and the random values 0 to 9. -/
def rowBoot : Machine :=
  { easyBoot with rands := [0, 1, 2, 3, 4, 5, 6, 7, 8, 9] }

/-- The game `initGame` generates from `rowBoot`: the mines fill the first row and
the first cell of the second row; the centre cell 40 is blank. -/
def rowGame : Machine :=
  { rowBoot with
    g_selx := 4, g_sely := 4, rands := []
    g_grid := [42, 42, 42, 42, 42, 42, 42, 42, 42,
               42, 52, 51, 51, 51, 51, 51, 51, 50,
               49, 49, 32, 32, 32, 32, 32, 32, 32,
               32, 32, 32, 32, 32, 32, 32, 32, 32,
               32, 32, 32, 32, 32, 32, 32, 32, 32,
               32, 32, 32, 32, 32, 32, 32, 32, 32,
               32, 32, 32, 32, 32, 32, 32, 32, 32,
               32, 32, 32, 32, 32, 32, 32, 32, 32,
               32, 32, 32, 32, 32, 32, 32, 32, 32] }

/-- A 9 by 9 board with 10 mines to place: three around the corner cell 0 and
seven in the last row. -/
def cornerBoot : Machine :=
  { easyBoot with rands := [1, 9, 10, 72, 73, 74, 75, 76, 77, 78] }

/-- The game `initGame` generates from `cornerBoot`: the corner cell 0 is not a
mine and has mines all around it; the centre cell 40 is blank. -/
def cornerGame : Machine :=
  { cornerBoot with
    g_selx := 4, g_sely := 4, rands := []
    g_grid := [51, 42, 50, 32, 32, 32, 32, 32, 32,
               42, 42, 50, 32, 32, 32, 32, 32, 32,
               50, 50, 49, 32, 32, 32, 32, 32, 32,
               32, 32, 32, 32, 32, 32, 32, 32, 32,
               32, 32, 32, 32, 32, 32, 32, 32, 32,
               32, 32, 32, 32, 32, 32, 32, 32, 32,
               32, 32, 32, 32, 32, 32, 32, 32, 32,
               50, 51, 51, 51, 51, 51, 50, 49, 32,
               42, 42, 42, 42, 42, 42, 42, 49, 32] }

/-! ## Lemmas

### The configuration -/

theorem tdiv_two_of_nonneg (a : Int) (h : 0 ≤ a) : Int.tdiv a 2 = a / 2 := by
  exact Int.tdiv_eq_ediv h (by norm_num)

theorem main_mode_custom (s : Settings) (h : s.g_mode = MODE_CUSTOM) :
    (main_mode s).g_mode = MODE_CUSTOM ∧
    (main_mode s).g_width = clamp 9 39 s.g_width ∧
    (main_mode s).g_height = clamp 9 20 s.g_height ∧
    (main_mode s).g_minecount =
      clamp 1 (MAX_MINES (main_mode s).g_width (main_mode s).g_height) s.g_minecount ∧
    40 ≤ MAX_MINES (main_mode s).g_width (main_mode s).g_height := by
  have hw : (main_mode s).g_width = clamp 9 39 s.g_width := by
    simp only [main_mode, h, MAX_WIDTH, MIN_WIDTH, clamp]
    split_ifs <;> omega
  have hh : (main_mode s).g_height = clamp 9 20 s.g_height := by
    simp only [main_mode, h, MAX_HEIGHT, MIN_HEIGHT, clamp]
    split_ifs <;> omega
  have hw1 : 9 ≤ clamp 9 39 s.g_width := by unfold clamp; omega
  have hh1 : 9 ≤ clamp 9 20 s.g_height := by unfold clamp; omega
  have hmax : 40 ≤ MAX_MINES (main_mode s).g_width (main_mode s).g_height := by
    rw [hw, hh, MAX_MINES, tdiv_two_of_nonneg _ (by positivity)]
    have : 81 ≤ clamp 9 39 s.g_width * clamp 9 20 s.g_height := by nlinarith
    omega
  refine ⟨?_, hw, hh, ?_, hmax⟩
  · simp only [main_mode, h]
  · have e : (main_mode s).g_minecount =
        (if s.g_minecount > MAX_MINES (main_mode s).g_width (main_mode s).g_height then
          MAX_MINES (main_mode s).g_width (main_mode s).g_height
        else if s.g_minecount < 1 then 1 else s.g_minecount) := by
      simp only [main_mode, h, MIN_MINES]
    rw [e]
    unfold clamp
    split_ifs <;> omega

theorem main_mode_range (s : Settings) :
    9 ≤ (main_mode s).g_width ∧ (main_mode s).g_width ≤ 39 ∧
    9 ≤ (main_mode s).g_height ∧ (main_mode s).g_height ≤ 20 ∧
    1 ≤ (main_mode s).g_minecount ∧
    (main_mode s).g_minecount ≤ MAX_MINES (main_mode s).g_width (main_mode s).g_height := by
  cases hm : s.g_mode
  case MODE_CUSTOM =>
    obtain ⟨-, hw, hh, hn, hmax⟩ := main_mode_custom s hm
    rw [hn, hw, hh] at *
    unfold clamp at *
    omega
  all_goals
    simp only [main_mode, hm, MAX_MINES]
    decide

/-! ### The cells around a cell -/

theorem decode (w a b d : Nat) (hb : b < w) (hd : d = a * w + b) : d / w = a ∧ d % w = b := by
  subst hd
  have hw : 0 < w := by omega
  constructor
  · rw [Nat.add_comm, Nat.add_mul_div_right _ _ hw, Nat.div_eq_of_lt hb, Nat.zero_add]
  · rw [Nat.add_comm, Nat.add_mul_mod_self_right, Nat.mod_eq_of_lt hb]

/-- A cell next to `(x, y)`, given by its coordinates, is a lattice neighbour. -/
theorem nbr_of_coords (w x y a b d : Nat) (hx : x < w) (hb : b < w)
    (hd : d = a * w + b) (hne : a ≠ y ∨ b ≠ x)
    (h1 : x ≤ b + 1) (h2 : b ≤ x + 1) (h3 : y ≤ a + 1) (h4 : a ≤ y + 1) :
    nbr w (y * w + x) d := by
  obtain ⟨e1, e2⟩ := decode w a b d hb hd
  obtain ⟨e3, e4⟩ := decode w y x (y * w + x) hx rfl
  refine ⟨?_, ?_, ?_⟩
  · intro hdj
    rw [hdj] at e1 e2
    rw [e3] at e1
    rw [e4] at e2
    omega
  · rw [e2, e4]; omega
  · rw [e1, e3]; omega

theorem mem_targets_xy (w h x y d : Nat) (hx : x < w) (hy : y < h) :
    d ∈ ((if x > 0 then
          (if y > 0 then [(y - 1) * w + x - 1] else []) ++
          [y * w + x - 1] ++
          (if y < h - 1 then [(y + 1) * w + x - 1] else [])
         else []) ++
        (if x < w - 1 then
          (if y > 0 then [(y - 1) * w + x + 1] else []) ++
          [y * w + x + 1] ++
          (if y < h - 1 then [(y + 1) * w + x + 1] else [])
         else []) ++
        (if y > 0 then [(y - 1) * w + x] else []) ++
        (if y < h - 1 then [(y + 1) * w + x] else []))
      ↔ (d / w < h ∧ nbr w (y * w + x) d) := by
  simp only [List.mem_append, List.mem_ite_nil_right, List.mem_singleton,
    List.mem_cons, List.not_mem_nil, or_false]
  constructor
  · intro hm
    rcases hm with ((⟨hx0, ((⟨hy0, hd⟩ | hd) | ⟨hy1, hd⟩)⟩ |
      ⟨hx1, ((⟨hy0, hd⟩ | hd) | ⟨hy1, hd⟩)⟩) | ⟨hy0, hd⟩) | ⟨hy1, hd⟩
    · have hd2 : d = (y - 1) * w + (x - 1) := by omega
      exact ⟨by rw [(decode w _ _ d (by omega) hd2).1]; omega,
        nbr_of_coords w x y _ _ d hx (by omega) hd2 (by omega) (by omega) (by omega)
          (by omega) (by omega)⟩
    · have hd2 : d = y * w + (x - 1) := by omega
      exact ⟨by rw [(decode w _ _ d (by omega) hd2).1]; omega,
        nbr_of_coords w x y _ _ d hx (by omega) hd2 (by omega) (by omega) (by omega)
          (by omega) (by omega)⟩
    · have hd2 : d = (y + 1) * w + (x - 1) := by omega
      exact ⟨by rw [(decode w _ _ d (by omega) hd2).1]; omega,
        nbr_of_coords w x y _ _ d hx (by omega) hd2 (by omega) (by omega) (by omega)
          (by omega) (by omega)⟩
    · have hd2 : d = (y - 1) * w + (x + 1) := by omega
      exact ⟨by rw [(decode w _ _ d (by omega) hd2).1]; omega,
        nbr_of_coords w x y _ _ d hx (by omega) hd2 (by omega) (by omega) (by omega)
          (by omega) (by omega)⟩
    · have hd2 : d = y * w + (x + 1) := by omega
      exact ⟨by rw [(decode w _ _ d (by omega) hd2).1]; omega,
        nbr_of_coords w x y _ _ d hx (by omega) hd2 (by omega) (by omega) (by omega)
          (by omega) (by omega)⟩
    · have hd2 : d = (y + 1) * w + (x + 1) := by omega
      exact ⟨by rw [(decode w _ _ d (by omega) hd2).1]; omega,
        nbr_of_coords w x y _ _ d hx (by omega) hd2 (by omega) (by omega) (by omega)
          (by omega) (by omega)⟩
    · have hd2 : d = (y - 1) * w + x := by omega
      exact ⟨by rw [(decode w _ _ d (by omega) hd2).1]; omega,
        nbr_of_coords w x y _ _ d hx (by omega) hd2 (by omega) (by omega) (by omega)
          (by omega) (by omega)⟩
    · have hd2 : d = (y + 1) * w + x := by omega
      exact ⟨by rw [(decode w _ _ d (by omega) hd2).1]; omega,
        nbr_of_coords w x y _ _ d hx (by omega) hd2 (by omega) (by omega) (by omega)
          (by omega) (by omega)⟩
  · rintro ⟨hlt, hne, ⟨hx1, hx2⟩, hy1, hy2⟩
    obtain ⟨e3, e4⟩ := decode w y x (y * w + x) hx rfl
    rw [e3] at hy1 hy2
    rw [e4] at hx1 hx2
    have hw : 0 < w := by omega
    have hde : d = d / w * w + d % w := by
      rw [Nat.mul_comm]; exact (Nat.div_add_mod d w).symm
    have hdx : d % w < w := Nat.mod_lt _ hw
    have hne2 : d / w ≠ y ∨ d % w ≠ x := by
      by_contra hc
      push_neg at hc
      rw [hc.1, hc.2] at hde
      exact hne hde
    clear e3 e4 hne
    generalize d / w = a at *
    generalize d % w = b at *
    subst hde
    have c : (a + 1 = y) ∨ a = y ∨ a = y + 1 := by omega
    have c2 : (b + 1 = x) ∨ b = x ∨ b = x + 1 := by omega
    rcases c with c | c | c <;> rcases c2 with c2 | c2 | c2 <;> subst c <;> subst c2 <;>
      try simp only [Nat.add_sub_cancel]
    · exact Or.inl (Or.inl (Or.inl ⟨by omega, Or.inl (Or.inl ⟨by omega, by omega⟩)⟩))
    · exact Or.inl (Or.inr ⟨by omega, trivial⟩)
    · exact Or.inl (Or.inl (Or.inr ⟨by omega, Or.inl (Or.inl ⟨by omega, by omega⟩)⟩))
    · exact Or.inl (Or.inl (Or.inl ⟨by omega, Or.inl (Or.inr (by omega))⟩))
    · rcases hne2 with hc | hc <;> exact absurd rfl hc
    · exact Or.inl (Or.inl (Or.inr ⟨by omega, Or.inl (Or.inr (by omega))⟩))
    · exact Or.inl (Or.inl (Or.inl ⟨by omega, Or.inr ⟨by omega, by omega⟩⟩))
    · exact Or.inr ⟨by omega, trivial⟩
    · exact Or.inl (Or.inl (Or.inr ⟨by omega, Or.inr ⟨by omega, by omega⟩⟩))

theorem mem_mineTargets (w h j d : Nat) (hj : j < w * h) :
    d ∈ mineTargets w h j ↔ (d < w * h ∧ nbr w j d) := by
  have hw : 0 < w := by
    rcases Nat.eq_zero_or_pos w with h0 | h0
    · simp [h0] at hj
    · exact h0
  have hjy : j / w < h := by
    rw [Nat.div_lt_iff_lt_mul hw, Nat.mul_comm]; exact hj
  have hje : j / w * w + j % w = j := by
    rw [Nat.mul_comm]; exact Nat.div_add_mod j w
  have hdy : d < w * h ↔ d / w < h := by
    rw [Nat.div_lt_iff_lt_mul hw, Nat.mul_comm]
  rw [hdy]
  refine Iff.trans (mem_targets_xy w h (j % w) (j / w) d (Nat.mod_lt _ hw) hjy) ?_
  rw [hje]

theorem nodup_mineTargets (w h j : Nat) (hj : j < w * h) : (mineTargets w h j).Nodup := by
  have hw : 0 < w := by
    rcases Nat.eq_zero_or_pos w with h0 | h0
    · simp [h0] at hj
    · exact h0
  have hx : j % w < w := Nat.mod_lt _ hw
  unfold mineTargets
  simp only []
  generalize j % w = x at hx ⊢
  generalize j / w = y
  have m1 : 0 < y → (y - 1) * w + w = y * w := by
    intro h0
    obtain ⟨z, rfl⟩ : ∃ z, y = z + 1 := ⟨y - 1, by omega⟩
    simp only [Nat.add_sub_cancel, Nat.add_mul, Nat.one_mul]
  have m2 : (y + 1) * w = y * w + w := by rw [Nat.add_mul, Nat.one_mul]
  split_ifs <;> simp <;> omega

theorem length_mineTargets_le (w h j : Nat) : (mineTargets w h j).length ≤ 8 := by
  unfold mineTargets
  simp only []
  split_ifs <;> simp

theorem mem_showTargets (w h idx d : Nat) (hj : idx < w * h) :
    d ∈ showTargets w h idx ↔ (d = idx ∨ (d < w * h ∧ nbr w idx d)) := by
  rw [← mem_mineTargets w h idx d hj]
  have hje : w * (idx / w) + idx % w = idx := Nat.div_add_mod idx w
  unfold showTargets mineTargets
  simp only [hje, Nat.mul_comm w, List.mem_append, List.mem_ite_nil_right, List.mem_singleton,
    List.mem_cons, List.not_mem_nil, or_false]
  rw [Nat.mul_comm] at hje
  rw [hje]
  tauto

/-! ### Arrays and counting -/

theorem getD_set_self {α : Type} (l : List α) (i : Nat) (a d : α) (h : i < l.length) :
    (l.set i a).getD i d = a := by
  rw [List.getD_eq_getElem?_getD, List.getElem?_set]
  simp [h]

theorem getD_set_ne {α : Type} (l : List α) (i j : Nat) (a d : α) (h : i ≠ j) :
    (l.set i a).getD j d = l.getD j d := by
  rw [List.getD_eq_getElem?_getD, List.getD_eq_getElem?_getD, List.getElem?_set]
  simp [h]

theorem getD_set {α : Type} (l : List α) (i j : Nat) (a d : α) :
    (l.set i a).getD j d = if i = j ∧ i < l.length then a else l.getD j d := by
  by_cases h : i = j
  · subst h
    by_cases h2 : i < l.length
    · simp [getD_set_self l i a d h2, h2]
    · simp only [h2, and_false, if_false]
      rw [List.set_eq_of_length_le (by omega)]
  · simp [getD_set_ne l i j a d h, h]

theorem getD_memset {α : Type} (p : List α) (c d : α) (n j : Nat) (hj : j < n) :
    (memset p c n).getD j d = c := by
  unfold memset
  rw [List.getD_eq_getElem?_getD, List.getElem?_append_left (by simpa using hj)]
  simp [hj]

theorem length_memset {α : Type} (p : List α) (c : α) (n : Nat) (h : p.length = n) :
    (memset p c n).length = n := by
  unfold memset
  simp [h]

theorem memset_eq {α : Type} (p : List α) (c : α) (n : Nat) (h : p.length = n) :
    memset p c n = List.replicate n c := by
  unfold memset
  rw [List.drop_of_length_le (by omega), List.append_nil]

/-- Counting over `0 .. n-1` when the property changes at one index only. -/
theorem countP_range_update (p q : Nat → Bool) (n j : Nat)
    (h : ∀ d, d < n → d ≠ j → q d = p d) :
    (List.range n).countP q + (if j < n ∧ p j = true then 1 else 0) =
      (List.range n).countP p + (if j < n ∧ q j = true then 1 else 0) := by
  induction n with
  | zero => simp
  | succ n ih =>
    have ih := ih (fun d hd hne => h d (by omega) hne)
    rw [List.range_succ, List.countP_append, List.countP_append]
    by_cases hjn : j = n
    · subst hjn
      simp only [Nat.lt_irrefl, false_and, if_false, Nat.add_zero] at ih
      simp only [List.countP_cons, List.countP_nil, Nat.lt_succ_self, true_and, ih]
      omega
    · have e := h n (by omega) (fun hc => hjn hc.symm)
      simp only [List.countP_cons, List.countP_nil, e]
      have hlt : j < n + 1 ↔ j < n := by omega
      simp only [hlt]
      omega

theorem countP_range_congr (p q : Nat → Bool) (n : Nat) (h : ∀ d, d < n → q d = p d) :
    (List.range n).countP q = (List.range n).countP p := by
  apply List.countP_congr
  intro x hx
  rw [h x (List.mem_range.mp hx)]

theorem length_bump (g : List Nat) (k : Nat) : (bump g k).length = g.length := by
  unfold bump; split_ifs <;> simp

theorem length_foldl_bump (T : List Nat) (g : List Nat) :
    (T.foldl bump g).length = g.length := by
  induction T generalizing g with
  | nil => rfl
  | cons k T ih => rw [List.foldl_cons, ih, length_bump]

theorem getD_bump (g : List Nat) (k c : Nat) :
    (bump g k).getD c 0 =
      if c = k ∧ g.getD c 0 ≠ MINE ∧ c < g.length then (g.getD c 0 + 1) % 256
      else g.getD c 0 := by
  unfold bump
  by_cases hm : g.getD k 0 = MINE
  · rw [if_neg (not_not.mpr hm), if_neg]
    rintro ⟨rfl, h1, -⟩
    exact h1 hm
  · rw [if_pos hm, getD_set]
    by_cases hck : c = k
    · subst hck
      simp only [true_and, hm, ne_eq, not_false_eq_true]
    · rw [if_neg (fun h => hck h.1.symm), if_neg (fun h => hck h.1)]

theorem getD_foldl_bump (T : List Nat) (hT : T.Nodup) (g : List Nat) (c : Nat) :
    (T.foldl bump g).getD c 0 =
      if c ∈ T ∧ g.getD c 0 ≠ MINE ∧ c < g.length then (g.getD c 0 + 1) % 256
      else g.getD c 0 := by
  induction T generalizing g with
  | nil => simp
  | cons k T ih =>
    rw [List.foldl_cons, ih (List.nodup_cons.mp hT).2, getD_bump, length_bump]
    have hk : k ∉ T := (List.nodup_cons.mp hT).1
    by_cases hck : c = k
    · subst hck
      simp only [hk, false_and, if_false, true_and, List.mem_cons, true_or]
    · simp only [hck, false_and, if_false, List.mem_cons, false_or]

/-! ### Counting mines -/

theorem nbr_symm (w c d : Nat) : nbr w c d ↔ nbr w d c := by
  unfold nbr
  constructor <;> rintro ⟨h1, ⟨h2, h3⟩, h4, h5⟩ <;> exact ⟨fun h => h1 h.symm, ⟨h3, h2⟩, h5, h4⟩

theorem mineNeighbours_le (w h : Nat) (grid : List Nat) (c : Nat) (hlen : grid.length = w * h)
    (hc : c < w * h) : mineNeighbours w grid c ≤ 8 := by
  unfold mineNeighbours
  have h1 : (List.range grid.length).countP (fun d => decide (nbr w c d ∧ grid.getD d 0 = MINE)) ≤
      (List.range grid.length).countP (fun d => decide (nbr w c d)) := by
    apply List.countP_mono_left
    intro x _ hx
    simp only [decide_eq_true_eq] at hx ⊢
    exact hx.1
  have h2 : ((List.range grid.length).filter (fun d => decide (nbr w c d))).length ≤
      (mineTargets w h c).length := by
    apply List.Subperm.length_le
    apply List.Nodup.subperm
    · exact (List.nodup_range _).filter _
    · intro d hd
      simp only [List.mem_filter, List.mem_range, decide_eq_true_eq] at hd
      rw [mem_mineTargets w h c d hc]
      exact ⟨by omega, hd.2⟩
  rw [← List.countP_eq_length_filter] at h2
  have := length_mineTargets_le w h c
  omega

theorem mineNeighbours_congr (w : Nat) (g1 g2 : List Nat) (c : Nat)
    (hlen : g2.length = g1.length)
    (h : ∀ d, d < g1.length → (g2.getD d 0 = MINE ↔ g1.getD d 0 = MINE)) :
    mineNeighbours w g2 c = mineNeighbours w g1 c := by
  unfold mineNeighbours
  rw [hlen]
  apply countP_range_congr
  intro d hd
  simp only [h d hd]

theorem mineCells_congr (g1 g2 : List Nat)
    (hlen : g2.length = g1.length)
    (h : ∀ d, d < g1.length → (g2.getD d 0 = MINE ↔ g1.getD d 0 = MINE)) :
    mineCells g2 = mineCells g1 := by
  unfold mineCells
  rw [hlen]
  apply countP_range_congr
  intro d hd
  simp only [h d hd]

/-- Adding one mine at `j`: the neighbour counts. -/
theorem mineNeighbours_add (w : Nat) (g1 g2 : List Nat) (c j : Nat)
    (hlen : g2.length = g1.length) (hj : j < g1.length) (hj1 : g1.getD j 0 ≠ MINE)
    (hj2 : g2.getD j 0 = MINE)
    (h : ∀ d, d < g1.length → d ≠ j → (g2.getD d 0 = MINE ↔ g1.getD d 0 = MINE)) :
    mineNeighbours w g2 c = mineNeighbours w g1 c + (if nbr w c j then 1 else 0) := by
  unfold mineNeighbours
  rw [hlen]
  have := countP_range_update (fun d => decide (nbr w c d ∧ g1.getD d 0 = MINE))
    (fun d => decide (nbr w c d ∧ g2.getD d 0 = MINE)) g1.length j
    (fun d hd hne => by simp only [h d hd hne])
  simp only [hj, hj1, hj2, true_and, and_false, decide_False, if_false, Nat.add_zero,
    decide_eq_true_eq, and_true, Bool.false_eq_true] at this
  exact this

theorem mineCells_add (g1 g2 : List Nat) (j : Nat)
    (hlen : g2.length = g1.length) (hj : j < g1.length) (hj1 : g1.getD j 0 ≠ MINE)
    (hj2 : g2.getD j 0 = MINE)
    (h : ∀ d, d < g1.length → d ≠ j → (g2.getD d 0 = MINE ↔ g1.getD d 0 = MINE)) :
    mineCells g2 = mineCells g1 + 1 := by
  unfold mineCells
  rw [hlen]
  have := countP_range_update (fun d => decide (g1.getD d 0 = MINE))
    (fun d => decide (g2.getD d 0 = MINE)) g1.length j
    (fun d hd hne => by simp only [h d hd hne])
  simp only [hj, hj1, hj2, true_and, decide_False, if_false, Nat.add_zero,
    decide_True, if_true, Bool.false_eq_true] at this
  exact this

/-! ### The placement loop and `initGame` -/

theorem placeStep_mine (w h : Nat) (grid : List Nat) (i : Int) (j : Nat)
    (hm : grid.getD j 0 = MINE) : placeStep w h grid i j = (grid, i) := by
  unfold placeStep
  rw [if_pos hm]

theorem placeStep_inv (w h : Nat) (grid : List Nat) (i : Int) (j : Nat)
    (hinv : PlaceInv w h grid i) (hj : j < w * h) :
    PlaceInv w h (placeStep w h grid i j).1 (placeStep w h grid i j).2 := by
  by_cases hm : grid.getD j 0 = MINE
  · rw [placeStep_mine w h grid i j hm]; exact hinv
  obtain ⟨hlen, hcell, hcnt⟩ := hinv
  have hstep : placeStep w h grid i j =
      ((mineTargets w h j).foldl bump (grid.set j MINE), i + 1) := by
    unfold placeStep
    rw [if_neg hm]
  rw [hstep]
  simp only
  have hnd := nodup_mineTargets w h j hj
  have hlen1 : (grid.set j MINE).length = grid.length := List.length_set _ _ _
  have hlen2 : ((mineTargets w h j).foldl bump (grid.set j MINE)).length = grid.length := by
    rw [length_foldl_bump, hlen1]
  have hjT : j ∉ mineTargets w h j := by
    rw [mem_mineTargets w h j j hj]
    rintro ⟨-, hn, -⟩
    exact hn rfl
  -- the value of every cell after the step
  have hval : ∀ c, c < w * h →
      ((mineTargets w h j).foldl bump (grid.set j MINE)).getD c 0 =
        if c = j then MINE
        else if grid.getD c 0 = MINE then MINE
        else if nbr w j c then grid.getD c 0 + 1 else grid.getD c 0 := by
    intro c hc
    rw [getD_foldl_bump _ hnd, getD_set, hlen1]
    by_cases hcj : c = j
    · subst hcj
      simp only [true_and, hlen, hc, if_true, ne_eq, not_true_eq_false, false_and, and_false,
        if_false]
    · have hjc : ¬ (j = c ∧ j < grid.length) := fun hh => hcj hh.1.symm
      rw [if_neg hjc, if_neg hcj]
      by_cases hcm : grid.getD c 0 = MINE
      · simp only [hcm, ne_eq, not_true_eq_false, false_and, and_false, if_false, if_true]
      · rw [if_neg hcm]
        have hmem := mem_mineTargets w h j c hj
        have e := hcell c hc hcm
        have hle := mineNeighbours_le w h grid c hlen hc
        by_cases hn : nbr w j c
        · rw [if_pos ⟨hmem.mpr ⟨hc, hn⟩, hcm, by omega⟩, if_pos hn]
          rw [e]
          unfold ZERO
          omega
        · rw [if_neg (fun hh => hn (hmem.mp hh.1).2), if_neg hn]
  have hmine : ∀ d, d < grid.length → d ≠ j →
      (((mineTargets w h j).foldl bump (grid.set j MINE)).getD d 0 = MINE ↔
        grid.getD d 0 = MINE) := by
    intro d hd hdj
    rw [hval d (by omega), if_neg hdj]
    by_cases hcm : grid.getD d 0 = MINE
    · simp only [hcm, if_true]
    · rw [if_neg hcm]
      have e := hcell d (by omega) hcm
      simp only [hcm, iff_false]
      unfold ZERO MINE at *
      split_ifs <;> omega
  have hjm : ((mineTargets w h j).foldl bump (grid.set j MINE)).getD j 0 = MINE := by
    rw [hval j hj, if_pos rfl]
  refine ⟨by rw [hlen2, hlen], ?_, ?_⟩
  · intro c hc hcm
    have hcj : c ≠ j := fun hh => hcm (hh ▸ hjm)
    have hcm1 : grid.getD c 0 ≠ MINE := fun hh => hcm ((hmine c (by omega) hcj).mpr hh)
    rw [mineNeighbours_add w grid _ c j hlen2 (by omega) hm hjm hmine]
    rw [hval c hc, if_neg hcj, if_neg hcm1, hcell c hc hcm1]
    by_cases hn : nbr w j c
    · rw [if_pos hn, if_pos ((nbr_symm w c j).mpr hn)]
      omega
    · rw [if_neg hn, if_neg (fun hh => hn ((nbr_symm w c j).mp hh))]
      omega
  · rw [mineCells_add grid _ j hlen2 (by omega) hm hjm hmine]
    push_cast
    omega

theorem getrand_lt (size r j : Nat) (h : getrand size r = some j) : j < size := by
  unfold getrand at h
  split_ifs at h with h0
  simp only [Option.some.injEq] at h
  subst h
  exact Nat.mod_lt _ (Nat.pos_of_ne_zero h0)

theorem placeMines_inv (w h : Nat) (n : Int) (rands : List Nat) (grid : List Nat) (i : Int)
    (hinv : PlaceInv w h grid i) :
    PlaceInv w h (placeMines w h (w * h) n rands grid i).1
      (placeMines w h (w * h) n rands grid i).2.1 := by
  induction rands generalizing grid i with
  | nil => exact hinv
  | cons r rs ih =>
    unfold placeMines
    split_ifs with hlt
    · cases hg : getrand (w * h) r with
      | none => exact hinv
      | some j => exact ih _ _ (placeStep_inv w h grid i j hinv (getrand_lt _ _ _ hg))
    · exact hinv

theorem length_blankZeros (n i : Nat) (g : List Nat) : (blankZeros n i g).length = g.length := by
  induction n generalizing i g with
  | zero => rfl
  | succ n ih =>
    unfold blankZeros
    rw [ih]
    split_ifs <;> simp

theorem getD_blankZeros (n i : Nat) (g : List Nat) (c : Nat) :
    (blankZeros n i g).getD c 0 =
      if i ≤ c ∧ c < i + n ∧ g.getD c 0 = ZERO ∧ c < g.length then BLANK else g.getD c 0 := by
  induction n generalizing i g with
  | zero =>
    unfold blankZeros
    rw [if_neg]
    omega
  | succ n ih =>
    unfold blankZeros
    rw [ih]
    by_cases hci : c = i
    · subst hci
      rw [if_neg (by omega)]
      by_cases hz : g.getD c 0 = ZERO
      · rw [if_pos hz, getD_set]
        simp only [true_and, hz, Nat.le_refl]
        have : c < c + (n + 1) := by omega
        simp only [this, true_and]
      · rw [if_neg hz, if_neg (fun hh => hz hh.2.2.1)]
    · have e : (if g.getD i 0 = ZERO then g.set i BLANK else g).getD c 0 = g.getD c 0 := by
        split_ifs
        · exact getD_set_ne g i c _ 0 (fun hh => hci hh.symm)
        · rfl
      have e2 : (if g.getD i 0 = ZERO then g.set i BLANK else g).length = g.length := by
        split_ifs <;> simp
      rw [e, e2]
      have hiff : (i + 1 ≤ c ∧ c < i + 1 + n ∧ g.getD c 0 = ZERO ∧ c < g.length) ↔
          (i ≤ c ∧ c < i + (n + 1) ∧ g.getD c 0 = ZERO ∧ c < g.length) := by
        constructor <;> rintro ⟨h1, h2, h3, h4⟩ <;> exact ⟨by omega, by omega, h3, h4⟩
      simp only [hiff]

theorem placeInv_start (w h : Nat) : PlaceInv w h (List.replicate (w * h) ZERO) 0 := by
  have hget : ∀ d, (List.replicate (w * h) ZERO).getD d 0 ≠ MINE := by
    intro d
    rw [List.getD_eq_getElem?_getD, List.getElem?_replicate]
    split_ifs <;> simp [ZERO, MINE]
  have hn : ∀ c, mineNeighbours w (List.replicate (w * h) ZERO) c = 0 := by
    intro c
    unfold mineNeighbours
    rw [List.countP_eq_zero]
    intro d _
    simp only [hget d, and_false, decide_False, Bool.false_eq_true, not_false_eq_true]
  refine ⟨by simp, ?_, ?_⟩
  · intro c hc _
    rw [hn c, List.getD_eq_getElem?_getD, List.getElem?_replicate]
    simp [hc]
  · unfold mineCells
    rw [List.countP_eq_zero.mpr]
    · rfl
    · intro d _
      simp only [hget d, decide_False, Bool.false_eq_true, not_false_eq_true]

theorem placeMines_le (w h size : Nat) (n : Int) (rands : List Nat) (grid : List Nat) (i : Int)
    (hi : i ≤ n) : (placeMines w h size n rands grid i).2.1 ≤ n := by
  induction rands generalizing grid i with
  | nil => exact hi
  | cons r rs ih =>
    unfold placeMines
    split_ifs with hlt
    · cases hg : getrand size r with
      | none => exact hi
      | some j =>
        apply ih
        unfold placeStep
        split_ifs
        · exact hi
        · simp only; omega
    · exact hi

/-- What `initGame` leaves when it returns. -/
theorem initGame_ret (m m' : Machine) (hret : initGame m = Outcome.ret m') :
    m' = { m with
      g_selx := m.g_width / 2
      g_sely := m.g_height / 2
      g_flagged := 0
      g_grid := blankZeros m.g_gridsize 0
        (placeMines m.g_width m.g_height m.g_gridsize m.g_minecount m.rands
          (memset m.g_grid ZERO m.g_gridsize) 0).1
      g_state := memset m.g_state STATE_HIDDEN m.g_gridsize
      rands := (placeMines m.g_width m.g_height m.g_gridsize m.g_minecount m.rands
          (memset m.g_grid ZERO m.g_gridsize) 0).2.2
      g_starttime := 0 } ∧
    ¬ (placeMines m.g_width m.g_height m.g_gridsize m.g_minecount m.rands
          (memset m.g_grid ZERO m.g_gridsize) 0).2.1 < m.g_minecount := by
  unfold initGame at hret
  simp only at hret
  split_ifs at hret with hlt
  simp only [Outcome.ret.injEq] at hret
  exact ⟨hret.symm, hlt⟩

/-- The grid `initGame` generates. -/
theorem initGame_grid (m m' : Machine) (hsize : m.g_gridsize = m.g_width * m.g_height)
    (hlen : m.g_grid.length = m.g_gridsize) (hret : initGame m = Outcome.ret m') :
    m'.g_width = m.g_width ∧ m'.g_height = m.g_height ∧ m'.g_gridsize = m.g_gridsize ∧
    m'.g_minecount = m.g_minecount ∧
    m'.g_grid.length = m.g_width * m.g_height ∧
    (∀ c, c < m.g_width * m.g_height → m'.g_grid.getD c 0 ≠ MINE →
      m'.g_grid.getD c 0 = cellChar (mineNeighbours m.g_width m'.g_grid c)) ∧
    (0 ≤ m.g_minecount → (mineCells m'.g_grid : Int) = m.g_minecount) := by
  obtain ⟨rfl, hdone⟩ := initGame_ret m m' hret
  simp only
  rw [memset_eq _ _ _ hlen, hsize] at hdone ⊢
  have hinv := placeMines_inv m.g_width m.g_height m.g_minecount m.rands _ 0
    (placeInv_start m.g_width m.g_height)
  have hle := placeMines_le m.g_width m.g_height (m.g_width * m.g_height) m.g_minecount m.rands
    (List.replicate (m.g_width * m.g_height) ZERO) 0
  generalize (placeMines m.g_width m.g_height (m.g_width * m.g_height) m.g_minecount m.rands
    (List.replicate (m.g_width * m.g_height) ZERO) 0) = P at *
  obtain ⟨hl, hcell, hcnt⟩ := hinv
  have hl2 : (blankZeros (m.g_width * m.g_height) 0 P.1).length = P.1.length :=
    length_blankZeros _ _ _
  have hmine : ∀ d, d < P.1.length →
      ((blankZeros (m.g_width * m.g_height) 0 P.1).getD d 0 = MINE ↔ P.1.getD d 0 = MINE) := by
    intro d _
    rw [getD_blankZeros]
    split_ifs with hc
    · rw [hc.2.2.1]; simp [BLANK, MINE, ZERO]
    · rfl
  refine ⟨trivial, trivial, trivial, trivial, by rw [hl2, hl], ?_, ?_⟩
  · intro c hc hcm
    rw [mineNeighbours_congr _ _ _ c hl2 hmine]
    have hcm1 : P.1.getD c 0 ≠ MINE := fun hh => hcm ((hmine c (by omega)).mpr hh)
    have e := hcell c hc hcm1
    rw [getD_blankZeros, e]
    unfold cellChar
    by_cases hk : mineNeighbours m.g_width P.1 c = 0
    · rw [hk, if_pos ⟨by omega, by omega, rfl, by omega⟩, if_pos rfl]
    · rw [if_neg (fun hh => hk (by have := hh.2.2.1; omega)), if_neg hk]
  · intro h0
    rw [mineCells_congr _ _ hl2 hmine, hcnt]
    have := hle h0
    omega

/-! ### `check_win`, `lose` and `flag` -/

theorem check_win_loop_iff (m : Machine) (n i : Nat) :
    check_win_loop m n i = true ↔
      ∀ c, i ≤ c → c < i + n → m.g_grid.getD c 0 ≠ MINE →
        m.g_state.getD c STATE_VISIBLE = STATE_VISIBLE := by
  induction n generalizing i with
  | zero =>
    unfold check_win_loop
    simp only [true_iff]
    intro c h1 h2
    omega
  | succ n ih =>
    unfold check_win_loop
    split_ifs with hc
    · simp only [Bool.false_eq_true, false_iff]
      intro hall
      exact hc.2 (hall i (Nat.le_refl _) (by omega) hc.1)
    · rw [ih]
      constructor
      · intro hall c h1 h2 h3
        by_cases hci : c = i
        · subst hci
          by_contra h4
          exact hc ⟨h3, h4⟩
        · exact hall c (by omega) (by omega) h3
      · intro hall c h1 h2 h3
        exact hall c (by omega) (by omega) h3

theorem check_win_iff (m : Machine) :
    check_win m = true ↔
      ∀ c, c < m.g_gridsize → m.g_grid.getD c 0 ≠ MINE →
        m.g_state.getD c STATE_VISIBLE = STATE_VISIBLE := by
  unfold check_win
  rw [check_win_loop_iff]
  constructor
  · intro h c hc; exact h c (Nat.zero_le _) (by omega)
  · intro h c _ hc; exact h c (by omega)

theorem initGame_log (m : Machine) : (initGame m).machine.log = m.log := by
  unfold initGame
  simp only
  split_ifs <;> rfl

theorem andThen_initGame_log (o : Outcome) :
    (o.andThen initGame).machine.log = o.machine.log := by
  cases o with
  | ret m => exact initGame_log m
  | halt m => rfl
  | stuck m => rfl

theorem continue_or_quit_log (m : Machine) : (continue_or_quit m).machine.log = m.log := by
  unfold continue_or_quit
  cases m.keys with
  | nil => rfl
  | cons k ks =>
    simp only
    split_ifs <;> rfl

theorem show_idx_mine (fuel : Nat) (m : Machine) (idx : Nat)
    (hmine : m.g_grid.getD idx 0 = MINE)
    (hhid : m.g_state.getD idx STATE_VISIBLE = STATE_HIDDEN) :
    show_idx (fuel + 1) m idx =
      some ((lose { m with g_state := m.g_state.set idx STATE_VISIBLE }).andThen initGame) := by
  unfold show_idx
  simp only [hhid, hmine, if_true]

theorem set_getD_self {α : Type} (l : List α) (i : Nat) (d : α) (h : i < l.length) :
    l.set i (l.getD i d) = l := by
  apply List.ext_getElem?
  intro j
  rw [List.getElem?_set]
  split_ifs with h1
  · subst h1
    rw [List.getD_eq_getElem?_getD, List.getElem?_eq_getElem h]
    rfl
  · rfl

theorem flag_flag (m : Machine) (idx : Nat) (hidx : idx < m.g_state.length) :
    flag (flag m idx) idx = m := by
  by_cases h1 : m.g_state.getD idx STATE_VISIBLE = STATE_HIDDEN
  · have e : flag m idx =
        { m with g_flagged := m.g_flagged + 1, g_state := m.g_state.set idx STATE_FLAG } := by
      unfold flag; rw [if_pos h1]
    rw [e]
    unfold flag
    simp only [getD_set_self _ _ _ _ hidx]
    rw [if_neg (by decide), if_pos trivial]
    have e2 : (m.g_state.set idx STATE_FLAG).set idx STATE_HIDDEN = m.g_state := by
      rw [List.set_set, ← h1, set_getD_self _ _ _ hidx]
    rw [e2]
    have e3 : m.g_flagged + 1 - 1 = m.g_flagged := by omega
    rw [e3]
  · by_cases h2 : m.g_state.getD idx STATE_VISIBLE = STATE_FLAG
    · have e : flag m idx =
          { m with g_flagged := m.g_flagged - 1, g_state := m.g_state.set idx STATE_HIDDEN } := by
        unfold flag; rw [if_neg h1, if_pos h2]
      rw [e]
      unfold flag
      simp only [getD_set_self _ _ _ _ hidx]
      rw [if_pos trivial]
      have e2 : (m.g_state.set idx STATE_HIDDEN).set idx STATE_FLAG = m.g_state := by
        rw [List.set_set, ← h2, set_getD_self _ _ _ hidx]
      simp only [e2]
      have e3 : m.g_flagged - 1 + 1 = m.g_flagged := by omega
      rw [e3]
    · have e : flag m idx = m := by
        unfold flag; rw [if_neg h1, if_neg h2]
      rw [e, e]

/-! ### The invariant of a session -/

theorem initGame_inv (m m' : Machine) (ha : Allocated m) (hret : initGame m = Outcome.ret m') :
    SessionInv m' := by
  obtain ⟨hw, hh, hsize, hlg, hls⟩ := ha
  obtain ⟨_, _, _, _, hl, _, _⟩ := initGame_grid m m' hsize hlg hret
  obtain ⟨rfl, -⟩ := initGame_ret m m' hret
  simp only at hl
  refine ⟨⟨hw, hh, hsize, by simp only; rw [hl, hsize], ?_⟩, ?_, ?_, ?_⟩
  · exact length_memset _ _ _ hls
  · exact Nat.div_lt_self hw (by decide)
  · exact Nat.div_lt_self hh (by decide)
  · unfold flagCount
    simp only
    rw [List.countP_eq_zero.mpr]
    · rfl
    · intro c hc
      rw [getD_memset _ _ _ _ _ (List.mem_range.mp hc)]
      decide

theorem flagCount_set_visible (m : Machine) (idx : Nat)
    (hhid : m.g_state.getD idx STATE_VISIBLE = STATE_HIDDEN) :
    flagCount { m with g_state := m.g_state.set idx STATE_VISIBLE } = flagCount m := by
  unfold flagCount
  apply countP_range_congr
  intro d _
  simp only [getD_set]
  split_ifs with h
  · rw [← h.1, hhid]; decide
  · rfl

theorem sessionInv_set_visible (m : Machine) (idx : Nat) (hinv : SessionInv m)
    (hhid : m.g_state.getD idx STATE_VISIBLE = STATE_HIDDEN) :
    SessionInv { m with g_state := m.g_state.set idx STATE_VISIBLE } := by
  obtain ⟨⟨hw, hh, hsize, hlg, hls⟩, hx, hy, hf⟩ := hinv
  refine ⟨⟨hw, hh, hsize, hlg, ?_⟩, hx, hy, ?_⟩
  · simp only [List.length_set]; exact hls
  · rw [flagCount_set_visible m idx hhid]; exact hf

theorem continue_or_quit_ret (m m' : Machine) (h : continue_or_quit m = Outcome.ret m') :
    ∃ ks, m' = { m with keys := ks } := by
  unfold continue_or_quit at h
  cases hk : m.keys with
  | nil => rw [hk] at h; cases h
  | cons k ks =>
    rw [hk] at h
    simp only at h
    split_ifs at h
    · cases h
    · simp only [Outcome.ret.injEq] at h
      exact ⟨ks, h.symm⟩

theorem andThen_ret (o : Outcome) (f : Machine → Outcome) (m' : Machine)
    (h : o.andThen f = Outcome.ret m') : ∃ m1, o = Outcome.ret m1 ∧ f m1 = Outcome.ret m' := by
  cases o with
  | ret m => exact ⟨m, rfl, h⟩
  | halt m => cases h
  | stuck m => cases h

theorem lose_initGame_inv (m m' : Machine) (ha : Allocated m)
    (h : (lose m).andThen initGame = Outcome.ret m') : SessionInv m' := by
  obtain ⟨m1, h1, h2⟩ := andThen_ret _ _ _ h
  unfold lose at h1
  obtain ⟨ks, rfl⟩ := continue_or_quit_ret _ _ h1
  refine initGame_inv _ _ ?_ h2
  exact ha

theorem win_initGame_inv (m m' : Machine) (ha : Allocated m)
    (h : (win m).andThen initGame = Outcome.ret m') : SessionInv m' := by
  obtain ⟨m1, h1, h2⟩ := andThen_ret _ _ _ h
  unfold win at h1
  obtain ⟨ks, rfl⟩ := continue_or_quit_ret _ _ h1
  refine initGame_inv _ _ ?_ h2
  exact ha

theorem callEach_inv (P : Machine → Prop) (f : Machine → Nat → Option Outcome)
    (hf : ∀ m k m', P m → f m k = some (Outcome.ret m') → P m')
    (T : List Nat) (m m' : Machine) (hm : P m)
    (h : callEach f T m = some (Outcome.ret m')) : P m' := by
  induction T generalizing m with
  | nil =>
    unfold callEach at h
    simp only [Option.some.injEq, Outcome.ret.injEq] at h
    exact h ▸ hm
  | cons k ks ih =>
    unfold callEach at h
    cases hk : f m k with
    | none => rw [hk] at h; cases h
    | some o =>
      cases o with
      | ret m1 => rw [hk] at h; exact ih m1 (hf m k m1 hm hk) h
      | halt m1 => rw [hk] at h; cases h
      | stuck m1 => rw [hk] at h; cases h

theorem show_idx_inv (fuel : Nat) (m : Machine) (idx : Nat) (m' : Machine)
    (hinv : SessionInv m) (h : show_idx fuel m idx = some (Outcome.ret m')) : SessionInv m' := by
  induction fuel generalizing m idx m' with
  | zero => unfold show_idx at h; cases h
  | succ fuel ih =>
    unfold show_idx at h
    simp only at h
    split_ifs at h with hhid hmine hblank
    · simp only [Option.some.injEq] at h
      exact lose_initGame_inv _ _ (sessionInv_set_visible m idx hinv hhid).1 h
    · exact callEach_inv SessionInv (show_idx fuel) (fun m k m' hm hk => ih m k m' hm hk) _ _ _
        (sessionInv_set_visible m idx hinv hhid) h
    · simp only [Option.some.injEq, Outcome.ret.injEq] at h
      exact h ▸ sessionInv_set_visible m idx hinv hhid
    · simp only [Option.some.injEq, Outcome.ret.injEq] at h
      exact h ▸ hinv

theorem SEL2IDX_lt (m : Machine) (hinv : SessionInv m) : SEL2IDX m < m.g_gridsize := by
  obtain ⟨⟨hw, hh, hsize, hlg, hls⟩, hx, hy, hf⟩ := hinv
  unfold SEL2IDX
  rw [hsize]
  have h1 : (m.g_sely + 1) * m.g_width ≤ m.g_height * m.g_width :=
    Nat.mul_le_mul_right _ hy
  rw [Nat.add_mul, Nat.one_mul] at h1
  rw [Nat.mul_comm m.g_width m.g_height]
  omega

theorem flag_inv (m : Machine) (idx : Nat) (hinv : SessionInv m) (hidx : idx < m.g_gridsize) :
    SessionInv (flag m idx) := by
  obtain ⟨⟨hw, hh, hsize, hlg, hls⟩, hx, hy, hf⟩ := hinv
  unfold flag
  split_ifs with h1 h2
  · refine ⟨⟨hw, hh, hsize, hlg, by simp only [List.length_set]; exact hls⟩, hx, hy, ?_⟩
    have := countP_range_update
      (fun c => decide (m.g_state.getD c STATE_VISIBLE = STATE_FLAG))
      (fun c => decide ((m.g_state.set idx STATE_FLAG).getD c STATE_VISIBLE = STATE_FLAG))
      m.g_gridsize idx
      (fun d _ hne => by simp only [getD_set_ne _ _ _ _ _ (fun h => hne h.symm)])
    simp only [hidx, true_and, h1, getD_set_self _ _ _ _ (hls ▸ hidx), decide_True, if_true,
      decide_eq_true_eq] at this
    rw [if_neg (by decide)] at this
    unfold flagCount at hf ⊢
    simp only
    rw [hf]
    omega
  · refine ⟨⟨hw, hh, hsize, hlg, by simp only [List.length_set]; exact hls⟩, hx, hy, ?_⟩
    have := countP_range_update
      (fun c => decide (m.g_state.getD c STATE_VISIBLE = STATE_FLAG))
      (fun c => decide ((m.g_state.set idx STATE_HIDDEN).getD c STATE_VISIBLE = STATE_FLAG))
      m.g_gridsize idx
      (fun d _ hne => by simp only [getD_set_ne _ _ _ _ _ (fun h => hne h.symm)])
    simp only [hidx, true_and, h2, getD_set_self _ _ _ _ (hls ▸ hidx), decide_True, if_true,
      decide_eq_true_eq] at this
    rw [if_neg (by decide)] at this
    unfold flagCount at hf ⊢
    simp only
    rw [hf]
    omega
  · exact ⟨⟨hw, hh, hsize, hlg, hls⟩, hx, hy, hf⟩

theorem runGame_switch_inv (fuel : Nat) (m m' : Machine) (k : key_t) (hinv : SessionInv m)
    (h : runGame_switch fuel m k = some (Outcome.ret m')) : SessionInv m' := by
  have hinv0 := hinv
  obtain ⟨⟨hw, hh, hsize, hlg, hls⟩, hx, hy, hf⟩ := hinv
  cases k with
  | KEY_UP =>
    simp only [runGame_switch, Option.some.injEq, Outcome.ret.injEq] at h
    subst h
    split_ifs
    · exact ⟨⟨hw, hh, hsize, hlg, hls⟩, hx, by simp only; omega, hf⟩
    · exact hinv0
  | KEY_DOWN =>
    simp only [runGame_switch, Option.some.injEq, Outcome.ret.injEq] at h
    subst h
    split_ifs
    · exact ⟨⟨hw, hh, hsize, hlg, hls⟩, hx, by simp only; omega, hf⟩
    · exact hinv0
  | KEY_LEFT =>
    simp only [runGame_switch, Option.some.injEq, Outcome.ret.injEq] at h
    subst h
    split_ifs
    · exact ⟨⟨hw, hh, hsize, hlg, hls⟩, by simp only; omega, hy, hf⟩
    · exact hinv0
  | KEY_RIGHT =>
    simp only [runGame_switch, Option.some.injEq, Outcome.ret.injEq] at h
    subst h
    split_ifs
    · exact ⟨⟨hw, hh, hsize, hlg, hls⟩, by simp only; omega, hy, hf⟩
    · exact hinv0
  | KEY_ENTER =>
    simp only [runGame_switch] at h
    exact show_idx_inv fuel m _ m' hinv0 h
  | chr c =>
    simp only [runGame_switch] at h
    split_ifs at h
    · simp only [Option.some.injEq, Outcome.ret.injEq] at h
      subst h
      exact flag_inv m _ hinv0 (SEL2IDX_lt m hinv0)
    · exact show_idx_inv fuel m _ m' hinv0 h
    · simp only [Option.some.injEq, Outcome.ret.injEq] at h
      exact h ▸ hinv0

theorem runGame_iter_inv (fuel : Nat) (m m' : Machine) (hinv : SessionInv m)
    (h : runGame_iter fuel m = some (Outcome.ret m')) : SessionInv m' := by
  unfold runGame_iter at h
  have key : ∀ m1 : Machine, SessionInv m1 →
      (match m1.keys with
        | [] => some (Outcome.stuck m1)
        | c :: ks =>
          let m2 : Machine := { m1 with keys := ks }
          if c = key_t.chr 113 then some (cleanup m2)
          else
            let m3 : Machine :=
              if m2.g_starttime = 0 then { m2 with g_starttime := m2.now } else m2
            runGame_switch fuel m3 c) = some (Outcome.ret m') → SessionInv m' := by
    intro m1 h1 h2
    cases hk : m1.keys with
    | nil => rw [hk] at h2; cases h2
    | cons c ks =>
      rw [hk] at h2
      simp only at h2
      split_ifs at h2 with hq h0
      · cases h2
      · refine runGame_switch_inv fuel _ m' c ?_ h2
        exact h1
      · refine runGame_switch_inv fuel _ m' c ?_ h2
        exact h1
  by_cases hwin : check_win m = true
  · rw [if_pos hwin] at h
    cases ho : (win m).andThen initGame with
    | ret m1 =>
      rw [ho] at h
      exact key m1 (win_initGame_inv m m1 hinv.1 ho) h
    | halt m1 => rw [ho] at h; cases h
    | stuck m1 => rw [ho] at h; cases h
  · rw [if_neg hwin] at h
    exact key m hinv h

theorem reachable_inv (m : Machine) (h : Reachable m) : SessionInv m := by
  induction h with
  | start m0 m ha hret => exact initGame_inv m0 m ha hret
  | iter fuel m m1 _ hstep ih => exact runGame_iter_inv fuel m m1 ih hstep

/-! ### The flood fill of `show` -/

theorem FloodReach.weaken {w size : Nat} {grid : List Nat} {st st1 : List state_t} {a c : Nat}
    (hsub : ∀ x, st1.getD x STATE_VISIBLE = STATE_HIDDEN → st.getD x STATE_VISIBLE = STATE_HIDDEN)
    (h : FloodReach w size grid st1 a c) : FloodReach w size grid st a c := by
  induction h with
  | base => exact FloodReach.base
  | step c d _ hb hh hd hn ih => exact FloodReach.step c d ih hb (hsub c hh) hd hn

theorem FloodReach.append {w size : Nat} {grid : List Nat} {st : List state_t} {a b c : Nat}
    (hab : FloodReach w size grid st a b) (hbc : FloodReach w size grid st b c) :
    FloodReach w size grid st a c := by
  induction hbc with
  | base => exact hab
  | step c d _ hb hh hd hn ih => exact FloodReach.step c d ih hb hh hd hn

theorem Mono.same (st : List state_t) : Mono st st := fun _ => Or.inl rfl

theorem Mono.chain {st st1 st2 : List state_t} (h1 : Mono st st1) (h2 : Mono st1 st2) :
    Mono st st2 := by
  intro c
  rcases h1 c with e1 | ⟨e1, e1'⟩
  · rcases h2 c with e2 | ⟨e2, e2'⟩
    · exact Or.inl (e2.trans e1)
    · exact Or.inr ⟨e1 ▸ e2, e2'⟩
  · rcases h2 c with e2 | ⟨e2, e2'⟩
    · exact Or.inr ⟨e1, e2.trans e1'⟩
    · rw [e1'] at e2; cases e2

theorem Mono.hidden {st st1 : List state_t} (h : Mono st st1) (c : Nat)
    (hc : st1.getD c STATE_VISIBLE = STATE_HIDDEN) : st.getD c STATE_VISIBLE = STATE_HIDDEN := by
  rcases h c with e | ⟨_, e⟩
  · rw [← e]; exact hc
  · rw [e] at hc; cases hc

theorem Mono.not_hidden {st st1 : List state_t} (h : Mono st st1) (c : Nat)
    (hc : st.getD c STATE_VISIBLE ≠ STATE_HIDDEN) : st1.getD c STATE_VISIBLE ≠ STATE_HIDDEN := by
  intro h1
  exact hc (h.hidden c h1)

theorem Mono.set_visible (st : List state_t) (idx : Nat)
    (hh : st.getD idx STATE_VISIBLE = STATE_HIDDEN) : Mono st (st.set idx STATE_VISIBLE) := by
  intro c
  rw [getD_set]
  split_ifs with h
  · exact Or.inr ⟨h.1 ▸ hh, rfl⟩
  · exact Or.inl rfl

theorem hiddenCount_mono (size : Nat) {st st1 : List state_t} (h : Mono st st1) :
    hiddenCount size st1 ≤ hiddenCount size st := by
  unfold hiddenCount
  apply List.countP_mono_left
  intro c _ hc
  simp only [decide_eq_true_eq] at hc ⊢
  exact h.hidden c hc

theorem hiddenCount_set_visible (size : Nat) (st : List state_t) (idx : Nat) (hidx : idx < size)
    (hh : st.getD idx STATE_VISIBLE = STATE_HIDDEN) :
    hiddenCount size (st.set idx STATE_VISIBLE) + 1 = hiddenCount size st := by
  have hlen : idx < st.length := by
    by_contra hc
    rw [List.getD_eq_default _ _ (by omega)] at hh
    cases hh
  unfold hiddenCount
  have := countP_range_update
    (fun c => decide (st.getD c STATE_VISIBLE = STATE_HIDDEN))
    (fun c => decide ((st.set idx STATE_VISIBLE).getD c STATE_VISIBLE = STATE_HIDDEN))
    size idx
    (fun d _ hne => by simp only [getD_set_ne _ _ _ _ _ (fun h => hne h.symm)])
  simp only [hidx, true_and, hh, getD_set_self _ _ _ _ hlen, decide_True, if_true,
    decide_eq_true_eq] at this
  rw [if_neg (by decide)] at this
  omega

theorem hiddenCount_le (size : Nat) (st : List state_t) : hiddenCount size st ≤ size := by
  unfold hiddenCount
  have := List.countP_le_length (fun c => decide (st.getD c STATE_VISIBLE = STATE_HIDDEN))
    (l := List.range size)
  simpa using this

theorem FloodOK.nil (w size : Nat) (grid : List Nat) (st : List state_t) :
    FloodOK w size grid st st [] := by
  refine ⟨Mono.same st, ?_, ?_, ?_⟩
  · intro c h
    exact absurd rfl h
  · intro k hk
    exact absurd hk (List.not_mem_nil k)
  · intro c h
    exact absurd rfl h

theorem FloodOK.cons {w size : Nat} {grid : List Nat} {st st2 st1 : List state_t} {k : Nat}
    {ks : List Nat} (h1 : FloodOK w size grid st st2 [k]) (h2 : FloodOK w size grid st2 st1 ks) :
    FloodOK w size grid st st1 (k :: ks) := by
  obtain ⟨m1, c1, r1, s1⟩ := h1
  obtain ⟨m2, c2, r2, s2⟩ := h2
  refine ⟨m1.chain m2, ?_, ?_, ?_⟩
  · intro c hch hb d hd hn
    by_cases h : st2.getD c STATE_VISIBLE = st.getD c STATE_VISIBLE
    · exact c2 c (fun e => hch (e.trans h)) hb d hd hn
    · exact m2.not_hidden d (c1 c h hb d hd hn)
  · intro k' hk'
    rcases List.mem_cons.mp hk' with e | e
    · exact m2.not_hidden k' (r1 k' (by rw [e]; exact List.mem_singleton.mpr rfl))
    · exact r2 k' e
  · intro c hch
    by_cases h : st2.getD c STATE_VISIBLE = st.getD c STATE_VISIBLE
    · obtain ⟨k', hk', hr⟩ := s2 c (fun e => hch (e.trans h))
      exact ⟨k', List.mem_cons_of_mem _ hk', hr.weaken (fun x hx => m1.hidden x hx)⟩
    · obtain ⟨k', hk', hr⟩ := s1 c h
      exact ⟨k', List.mem_cons.mpr (Or.inl (List.mem_singleton.mp hk')), hr⟩

/-- The calls of `callEach` on a list of cells, given what one call does. -/
theorem callEach_flood (fuel : Nat) (m : Machine)
    (ih : ∀ (st : List state_t) (k : Nat), k < m.g_gridsize → m.g_grid.getD k 0 ≠ MINE →
      hiddenCount m.g_gridsize st < fuel →
      ∃ st1, show_idx fuel { m with g_state := st } k = some (Outcome.ret { m with g_state := st1 }) ∧
        FloodOK m.g_width m.g_gridsize m.g_grid st st1 [k])
    (T : List Nat) (hT : ∀ k, k ∈ T → k < m.g_gridsize ∧ m.g_grid.getD k 0 ≠ MINE)
    (st : List state_t) (hfuel : hiddenCount m.g_gridsize st < fuel) :
    ∃ st1, callEach (show_idx fuel) T { m with g_state := st } =
        some (Outcome.ret { m with g_state := st1 }) ∧
      FloodOK m.g_width m.g_gridsize m.g_grid st st1 T := by
  induction T generalizing st with
  | nil => exact ⟨st, rfl, FloodOK.nil _ _ _ _⟩
  | cons k ks ihT =>
    obtain ⟨hk1, hk2⟩ := hT k (List.mem_cons_self _ _)
    obtain ⟨st2, e2, ok2⟩ := ih st k hk1 hk2 hfuel
    have hfuel2 : hiddenCount m.g_gridsize st2 < fuel :=
      Nat.lt_of_le_of_lt (hiddenCount_mono _ ok2.1) hfuel
    obtain ⟨st1, e1, ok1⟩ := ihT (fun k' hk' => hT k' (List.mem_cons_of_mem _ hk')) st2 hfuel2
    refine ⟨st1, ?_, ok2.cons ok1⟩
    unfold callEach
    rw [e2]
    exact e1

/-- One call of `show` on a cell that is not a mine, on a grid whose blank cells
have no mine next to them: with more fuel than hidden cells it returns, only the
visibility array changes, and the change is a flood fill from `idx`. -/
theorem show_idx_flood (fuel : Nat) (m : Machine) (hg : GridOK m) (idx : Nat)
    (hidx : idx < m.g_gridsize) (hnm : m.g_grid.getD idx 0 ≠ MINE)
    (hfuel : hiddenCount m.g_gridsize m.g_state < fuel) :
    ∃ st1, show_idx fuel m idx = some (Outcome.ret { m with g_state := st1 }) ∧
      FloodOK m.g_width m.g_gridsize m.g_grid m.g_state st1 [idx] := by
  induction fuel generalizing m idx with
  | zero => omega
  | succ fuel ih =>
    obtain ⟨hsize, hnear⟩ := hg
    unfold show_idx
    simp only
    by_cases hh : m.g_state.getD idx STATE_VISIBLE = STATE_HIDDEN
    · rw [if_pos hh, if_neg hnm]
      have hlen : idx < m.g_state.length := by
        by_contra hc
        rw [List.getD_eq_default _ _ (by omega)] at hh
        cases hh
      have hvis : (m.g_state.set idx STATE_VISIBLE).getD idx STATE_VISIBLE = STATE_VISIBLE :=
        getD_set_self _ _ _ _ hlen
      have hmono := Mono.set_visible m.g_state idx hh
      have hother : ∀ c, c ≠ idx →
          (m.g_state.set idx STATE_VISIBLE).getD c STATE_VISIBLE =
            m.g_state.getD c STATE_VISIBLE :=
        fun c hc => getD_set_ne _ _ _ _ _ (fun e => hc e.symm)
      by_cases hb : m.g_grid.getD idx 0 = BLANK
      · rw [if_pos hb]
        have hcnt := hiddenCount_set_visible m.g_gridsize m.g_state idx hidx hh
        have hT : ∀ k, k ∈ showTargets m.g_width m.g_height idx →
            k < m.g_gridsize ∧ m.g_grid.getD k 0 ≠ MINE := by
          intro k hk
          rw [mem_showTargets _ _ _ _ (hsize ▸ hidx)] at hk
          rcases hk with e | ⟨h1, h2⟩
          · rw [e]; exact ⟨hidx, hnm⟩
          · exact ⟨hsize ▸ h1, hnear idx k hidx hb (hsize ▸ h1) h2⟩
        obtain ⟨st1, e1, ok1⟩ := callEach_flood fuel m
          (fun st k hk1 hk2 hf => ih { m with g_state := st } ⟨hsize, hnear⟩ k hk1 hk2 hf)
          (showTargets m.g_width m.g_height idx) hT (m.g_state.set idx STATE_VISIBLE)
          (by omega)
        obtain ⟨m1, c1, r1, s1⟩ := ok1
        refine ⟨st1, e1, hmono.chain m1, ?_, ?_, ?_⟩
        · intro c hch hcb d hd hn
          by_cases hc : c = idx
          · subst hc
            exact r1 d ((mem_showTargets _ _ _ _ (hsize ▸ hidx)).mpr (Or.inr ⟨hsize ▸ hd, hn⟩))
          · exact c1 c (fun e => hch (e.trans (hother c hc))) hcb d hd hn
        · intro k hk
          rw [List.mem_singleton.mp hk]
          exact m1.not_hidden idx (by rw [hvis]; decide)
        · intro c hch
          by_cases hc : c = idx
          · subst hc
            exact ⟨c, List.mem_singleton.mpr rfl, FloodReach.base⟩
          · obtain ⟨k, hk, hr⟩ := s1 c (fun e => hch (e.trans (hother c hc)))
            refine ⟨idx, List.mem_singleton.mpr rfl, ?_⟩
            have hr0 := hr.weaken (fun x hx => hmono.hidden x hx)
            rw [mem_showTargets _ _ _ _ (hsize ▸ hidx)] at hk
            rcases hk with e | ⟨h1, h2⟩
            · rw [e] at hr0; exact hr0
            · exact (FloodReach.step idx k FloodReach.base hb hh (hsize ▸ h1) h2).append hr0
      · rw [if_neg hb]
        refine ⟨_, rfl, hmono, ?_, ?_, ?_⟩
        · intro c hch hcb
          by_cases hc : c = idx
          · subst hc; exact absurd hcb hb
          · exact absurd (hother c hc) hch
        · intro k hk
          rw [List.mem_singleton.mp hk, hvis]
          decide
        · intro c hch
          by_cases hc : c = idx
          · subst hc
            exact ⟨c, List.mem_singleton.mpr rfl, FloodReach.base⟩
          · exact absurd (hother c hc) hch
    · rw [if_neg hh]
      refine ⟨m.g_state, rfl, Mono.same _, ?_, ?_, ?_⟩
      · intro c h
        exact absurd rfl h
      · intro k hk
        rw [List.mem_singleton.mp hk]
        exact hh
      · intro c h
        exact absurd rfl h

theorem BlankRegion.blank {m : Machine} {idx c : Nat} (h : BlankRegion m idx c) :
    c < m.g_gridsize ∧ m.g_grid.getD c 0 = BLANK := by
  cases h with
  | base h1 h2 => exact ⟨h1, h2⟩
  | step c d _ h1 _ h2 => exact ⟨h1, h2⟩

theorem cellChar_eq_blank (k : Nat) (h : cellChar k = BLANK) : k = 0 := by
  unfold cellChar at h
  split_ifs at h with h0
  · exact h0
  · unfold ZERO BLANK at h; omega

theorem adjInvariant_gridOK (m : Machine) (h : AdjInvariant m) : GridOK m := by
  obtain ⟨hsize, hlen, hcell⟩ := h
  refine ⟨hsize, ?_⟩
  intro c d hc hb hd hn hm
  have hcm : m.g_grid.getD c 0 ≠ MINE := by rw [hb]; decide
  have h0 := cellChar_eq_blank _ ((hcell c hc hcm).symm.trans hb)
  unfold mineNeighbours at h0
  rw [List.countP_eq_zero] at h0
  have := h0 d (List.mem_range.mpr (by omega))
  simp only [hn, hm, and_self, decide_True, not_true_eq_false] at this

/-- Completeness of a flood fill: every hidden cell the flood can reach is revealed. -/
theorem FloodOK.reached {w size : Nat} {grid : List Nat} {st st1 : List state_t} {idx c : Nat}
    (ok : FloodOK w size grid st st1 [idx]) (hr : FloodReach w size grid st idx c) :
    st.getD c STATE_VISIBLE = STATE_HIDDEN → st1.getD c STATE_VISIBLE = STATE_VISIBLE := by
  obtain ⟨hm, hcl, hroot, -⟩ := ok
  intro hc
  have key : st.getD c STATE_VISIBLE = STATE_HIDDEN →
      st1.getD c STATE_VISIBLE ≠ st.getD c STATE_VISIBLE := by
    clear hc
    induction hr with
    | base =>
      intro h0
      rw [h0]
      exact hroot idx (List.mem_singleton.mpr rfl)
    | step c d _ hb hh hd hn ih =>
      intro h0
      rw [h0]
      exact hcl c (ih hh) hb d hd hn
  rcases hm c with e | ⟨_, e⟩
  · exact absurd e (key hc)
  · exact e

/-- Soundness of a flood fill: a cell that changed was hidden, is visible and was
reached by the flood. -/
theorem FloodOK.changed {w size : Nat} {grid : List Nat} {st st1 : List state_t} {idx c : Nat}
    (ok : FloodOK w size grid st st1 [idx])
    (hc : st1.getD c STATE_VISIBLE ≠ st.getD c STATE_VISIBLE) :
    st.getD c STATE_VISIBLE = STATE_HIDDEN ∧ st1.getD c STATE_VISIBLE = STATE_VISIBLE ∧
      FloodReach w size grid st idx c := by
  obtain ⟨hm, -, -, hs⟩ := ok
  obtain ⟨k, hk, hr⟩ := hs c hc
  rw [List.mem_singleton.mp hk] at hr
  rcases hm c with e | ⟨e1, e2⟩
  · exact absurd e hc
  · exact ⟨e1, e2, hr⟩

theorem floodReach_revealSet (m : Machine) (hg : GridOK m) (idx c : Nat)
    (hidx : idx < m.g_gridsize) (hb : m.g_grid.getD idx 0 = BLANK)
    (hr : FloodReach m.g_width m.g_gridsize m.g_grid m.g_state idx c) : RevealSet m idx c := by
  induction hr with
  | base => exact Or.inl (BlankRegion.base hidx hb)
  | step c d _ hcb _ hd hn ih =>
    have hreg : BlankRegion m idx c := by
      rcases ih with h | ⟨b, _, _, _, h, _⟩
      · exact h
      · exact absurd hcb h
    by_cases hdb : m.g_grid.getD d 0 = BLANK
    · exact Or.inl (BlankRegion.step c d hreg hd hn hdb)
    · exact Or.inr ⟨c, hreg, hn, hd, hdb, hg.2 c d hreg.blank.1 hcb hd hn⟩

theorem revealSet_floodReach (m : Machine) (idx c : Nat)
    (hreg : ∀ b, BlankRegion m idx b → m.g_state.getD b STATE_VISIBLE = STATE_HIDDEN)
    (hc : RevealSet m idx c) :
    FloodReach m.g_width m.g_gridsize m.g_grid m.g_state idx c := by
  have key : ∀ b, BlankRegion m idx b →
      FloodReach m.g_width m.g_gridsize m.g_grid m.g_state idx b := by
    intro b hb
    induction hb with
    | base _ _ => exact FloodReach.base
    | step c d hc hd hn _ ih => exact FloodReach.step c d ih hc.blank.2 (hreg c hc) hd hn
  rcases hc with h | ⟨b, hb, hn, hd, _, _⟩
  · exact key c h
  · exact FloodReach.step b c (key b hb) hb.blank.2 (hreg b hb) hd hn

/-! ### A new game -/

theorem startsGame_initGame (m m1 : Machine) (h : StartsGame m m1) :
    ∃ ks lg, initGame { m with keys := ks, log := lg } = Outcome.ret m1 := by
  rcases h with h | h | h
  · exact ⟨m.keys, m.log, h⟩
  · obtain ⟨m2, h1, h2⟩ := andThen_ret _ _ _ h
    unfold lose at h1
    obtain ⟨ks, rfl⟩ := continue_or_quit_ret _ _ h1
    exact ⟨ks, _, h2⟩
  · obtain ⟨m2, h1, h2⟩ := andThen_ret _ _ _ h
    unfold win at h1
    obtain ⟨ks, rfl⟩ := continue_or_quit_ret _ _ h1
    exact ⟨ks, _, h2⟩

/-- What `initGame` resets. -/
theorem initGame_resets (m m1 : Machine) (h : initGame m = Outcome.ret m1) :
    (∀ c, c < m1.g_gridsize → m1.g_state.getD c STATE_VISIBLE = STATE_HIDDEN) ∧
    m1.g_flagged = 0 ∧ m1.g_selx = m1.g_width / 2 ∧ m1.g_sely = m1.g_height / 2 ∧
    m1.g_starttime = 0 := by
  obtain ⟨rfl, -⟩ := initGame_ret m m1 h
  refine ⟨?_, rfl, rfl, rfl, rfl⟩
  intro c hc
  exact getD_memset _ _ _ _ _ hc

theorem countP_range_lt (p : Nat → Bool) (n : Nat) (h : (List.range n).countP p < n) :
    ∃ c, c < n ∧ p c = false := by
  by_contra hc
  push_neg at hc
  have : (List.range n).countP p = (List.range n).length := by
    rw [List.countP_eq_length]
    intro c hcm
    have := hc c (List.mem_range.mp hcm)
    simpa using this
  rw [List.length_range] at this
  omega

/-- A game `initGame` has just generated, with at least one cell that is not a
mine, is not won. -/
theorem initGame_not_won (m m1 : Machine) (hsize : m.g_gridsize = m.g_width * m.g_height)
    (hlen : m.g_grid.length = m.g_gridsize) (h1 : 1 ≤ m.g_minecount)
    (h2 : m.g_minecount ≤ ((m.g_width * m.g_height / 2 : Nat) : Int))
    (h : initGame m = Outcome.ret m1) : check_win m1 = false := by
  obtain ⟨-, -, hs, -, hl, -, hcnt⟩ := initGame_grid m m1 hsize hlen h
  obtain ⟨hhid, -⟩ := initGame_resets m m1 h
  have hc := hcnt (by omega)
  have hlt : mineCells m1.g_grid < m1.g_grid.length := by
    rw [hl]
    have : (mineCells m1.g_grid : Int) ≤ ((m.g_width * m.g_height / 2 : Nat) : Int) := by
      rw [hc]; exact h2
    have h3 : mineCells m1.g_grid ≤ m.g_width * m.g_height / 2 := by exact_mod_cast this
    have h4 : 1 ≤ mineCells m1.g_grid := by
      have : (1 : Int) ≤ (mineCells m1.g_grid : Int) := by rw [hc]; exact h1
      exact_mod_cast this
    omega
  obtain ⟨c, hc1, hc2⟩ := countP_range_lt _ _ hlt
  simp only [decide_eq_false_iff_not] at hc2
  rw [Bool.eq_false_iff]
  intro hw
  rw [check_win_iff] at hw
  have hcs : c < m1.g_gridsize := by rw [hs, hsize, ← hl]; exact hc1
  have := hw c hcs hc2
  rw [hhid c hcs] at this
  cases this

/-! ### Keys of the game loop -/

/-- An iteration of the game loop is the win test followed by the handling of a
key. -/
theorem runGame_iter_split (fuel : Nat) (m : Machine) :
    runGame_iter fuel m =
      match (if check_win m then (win m).andThen initGame else Outcome.ret m) with
      | Outcome.ret m1 => runGame_key fuel m1
      | o => some o := by
  rfl

theorem runGame_iter_not_won (fuel : Nat) (m : Machine) (hwin : check_win m = false) :
    runGame_iter fuel m = runGame_key fuel m := by
  rw [runGame_iter_split, hwin]
  rfl

/-- Handling a key other than `q`: the start time is set when it was unset, then
the key is dispatched. -/
theorem runGame_key_cons (fuel : Nat) (m : Machine) (c : key_t) (ks : List key_t)
    (hkeys : m.keys = c :: ks) (hq : c ≠ key_t.chr 113) :
    runGame_key fuel m =
      runGame_switch fuel
        { m with
          keys := ks
          g_starttime := if m.g_starttime = 0 then m.now else m.g_starttime } c := by
  unfold runGame_key
  simp only [hkeys, hq, if_false]
  by_cases h0 : m.g_starttime = 0
  · simp only [h0, if_true]
  · simp only [h0, if_false]

/-! ### Fuel, and more on the flood fill -/

theorem callEach_some_mono (f g : Machine → Nat → Option Outcome)
    (hfg : ∀ m k o, f m k = some o → g m k = some o) (T : List Nat) (m : Machine) (o : Outcome)
    (h : callEach f T m = some o) : callEach g T m = some o := by
  induction T generalizing m with
  | nil => exact h
  | cons k ks ih =>
    unfold callEach at h ⊢
    cases hk : f m k with
    | none => rw [hk] at h; cases h
    | some o1 =>
      rw [hk] at h
      rw [hfg m k o1 hk]
      cases o1 with
      | ret m1 => exact ih m1 h
      | halt m1 => exact h
      | stuck m1 => exact h

/-- A result of `show` obtained with some fuel is obtained with more fuel. -/
theorem show_idx_fuel_succ (fuel : Nat) (m : Machine) (idx : Nat) (o : Outcome)
    (h : show_idx fuel m idx = some o) : show_idx (fuel + 1) m idx = some o := by
  induction fuel generalizing m idx o with
  | zero => unfold show_idx at h; cases h
  | succ n ih =>
    rw [show_idx] at h ⊢
    simp only at h ⊢
    split_ifs at h ⊢
    · exact h
    · exact callEach_some_mono _ _ (fun m k o hk => ih m k o hk) _ _ _ h
    · exact h
    · exact h

theorem show_idx_fuel_le (fuel fuel1 : Nat) (hle : fuel ≤ fuel1) (m : Machine) (idx : Nat)
    (o : Outcome) (h : show_idx fuel m idx = some o) : show_idx fuel1 m idx = some o := by
  induction hle with
  | refl => exact h
  | step _ ih => exact show_idx_fuel_succ _ m idx o ih

theorem floodReach_lt {w size : Nat} {grid : List Nat} {st : List state_t} {idx c : Nat}
    (hidx : idx < size) (h : FloodReach w size grid st idx c) : c < size := by
  induction h with
  | base => exact hidx
  | step c d _ _ _ hd _ _ => exact hd

theorem floodReach_not_mine {w size : Nat} {grid : List Nat} {st : List state_t} {idx c : Nat}
    (hnear : NoMineNearBlank w size grid) (hidx : idx < size) (hnm : grid.getD idx 0 ≠ MINE)
    (h : FloodReach w size grid st idx c) : grid.getD c 0 ≠ MINE := by
  induction h with
  | base => exact hnm
  | step c d hc hb _ hd hn _ => exact hnear c d (floodReach_lt hidx hc) hb hd hn

theorem floodReach_numbered {w size : Nat} {grid : List Nat} {st : List state_t} {idx c : Nat}
    (hnb : grid.getD idx 0 ≠ BLANK) (h : FloodReach w size grid st idx c) : c = idx := by
  induction h with
  | base => rfl
  | step c d _ hb _ _ _ ih => rw [ih] at hb; exact absurd hb hnb

/-- The flood fill of `show` on a cell that is not a mine, for every fuel above the
number of hidden cells. -/
theorem show_idx_flood_all (m : Machine) (hg : GridOK m) (idx : Nat)
    (hidx : idx < m.g_gridsize) (hnm : m.g_grid.getD idx 0 ≠ MINE) :
    ∃ st1, (∀ fuel, hiddenCount m.g_gridsize m.g_state < fuel →
        show_idx fuel m idx = some (Outcome.ret { m with g_state := st1 })) ∧
      FloodOK m.g_width m.g_gridsize m.g_grid m.g_state st1 [idx] := by
  obtain ⟨st1, e, ok⟩ := show_idx_flood (hiddenCount m.g_gridsize m.g_state + 1) m hg idx hidx
    hnm (Nat.lt_succ_self _)
  exact ⟨st1, fun fuel hf => show_idx_fuel_le _ fuel hf m idx _ e, ok⟩

/-- A flood fill from a hidden cell strictly lowers the number of hidden cells. -/
theorem FloodOK.fewer_hidden {w size : Nat} {grid : List Nat} {st st1 : List state_t}
    {idx : Nat} (ok : FloodOK w size grid st st1 [idx]) (hidx : idx < size)
    (hh : st.getD idx STATE_VISIBLE = STATE_HIDDEN) :
    hiddenCount size st1 < hiddenCount size st := by
  have h1 := hiddenCount_set_visible size st idx hidx hh
  have h2 : hiddenCount size st1 ≤ hiddenCount size (st.set idx STATE_VISIBLE) := by
    unfold hiddenCount
    apply List.countP_mono_left
    intro c _ hc
    simp only [decide_eq_true_eq] at hc ⊢
    have hci : c ≠ idx := by
      intro e
      rw [e] at hc
      exact ok.2.2.1 idx (List.mem_singleton.mpr rfl) hc
    rw [getD_set_ne _ _ _ _ _ (fun e => hci e.symm)]
    exact ok.1.hidden c hc
  omega

/-- The cells a flood fill changes, exactly. -/
theorem FloodOK.changed_iff {w size : Nat} {grid : List Nat} {st st1 : List state_t}
    {idx : Nat} (ok : FloodOK w size grid st st1 [idx]) (c : Nat) :
    st1.getD c STATE_VISIBLE ≠ st.getD c STATE_VISIBLE ↔
      (st.getD c STATE_VISIBLE = STATE_HIDDEN ∧ FloodReach w size grid st idx c) := by
  constructor
  · intro hne
    obtain ⟨h1, -, h3⟩ := ok.changed hne
    exact ⟨h1, h3⟩
  · rintro ⟨h1, h2⟩
    rw [ok.reached h2 h1, h1]
    decide

/-- The flood fill of `show` from a blank cell whose blank region is all hidden, in
terms of the region and the numbered cells next to it. -/
theorem show_idx_region (m : Machine) (idx : Nat) (hadj : AdjInvariant m)
    (hidx : idx < m.g_gridsize) (hb : m.g_grid.getD idx 0 = BLANK)
    (hreg : ∀ b, BlankRegion m idx b → m.g_state.getD b STATE_VISIBLE = STATE_HIDDEN) :
    ∃ st1, (∀ fuel, hiddenCount m.g_gridsize m.g_state < fuel →
        show_idx fuel m idx = some (Outcome.ret { m with g_state := st1 })) ∧
      (∀ c, RevealSet m idx c → m.g_state.getD c STATE_VISIBLE = STATE_HIDDEN →
        st1.getD c STATE_VISIBLE = STATE_VISIBLE) ∧
      (∀ c, ¬ (RevealSet m idx c ∧ m.g_state.getD c STATE_VISIBLE = STATE_HIDDEN) →
        st1.getD c STATE_VISIBLE = m.g_state.getD c STATE_VISIBLE) := by
  have hg := adjInvariant_gridOK m hadj
  have hnm : m.g_grid.getD idx 0 ≠ MINE := by rw [hb]; decide
  obtain ⟨st1, e, ok⟩ := show_idx_flood_all m hg idx hidx hnm
  refine ⟨st1, e, fun c hc hh => ok.reached (revealSet_floodReach m idx c hreg hc) hh, ?_⟩
  intro c hc
  by_contra hne
  obtain ⟨h1, -, h3⟩ := ok.changed hne
  exact hc ⟨floodReach_revealSet m hg idx c hidx hb h3, h1⟩

/-! ### Termination of the placement loop -/

theorem placeStep_place (w h : Nat) (grid : List Nat) (i : Int) (j : Nat)
    (hm : grid.getD j 0 ≠ MINE) :
    placeStep w h grid i j = ((mineTargets w h j).foldl bump (grid.set j MINE), i + 1) := by
  unfold placeStep
  rw [if_neg hm]

/-- The mines after a mine was placed at `j`: those before, and `j`. -/
theorem placeStep_mines (w h : Nat) (grid : List Nat) (i : Int) (j : Nat)
    (hinv : PlaceInv w h grid i) (hj : j < w * h) (hm : grid.getD j 0 ≠ MINE) (d : Nat)
    (hd : d < w * h) :
    (placeStep w h grid i j).1.getD d 0 = MINE ↔ (d = j ∨ grid.getD d 0 = MINE) := by
  obtain ⟨hlen, hcell, -⟩ := hinv
  rw [placeStep_place w h grid i j hm]
  simp only
  rw [getD_foldl_bump _ (nodup_mineTargets w h j hj), getD_set, List.length_set]
  by_cases hdj : d = j
  · subst hdj
    simp only [true_and, hlen, hd, if_true, ne_eq, not_true_eq_false, false_and, and_false,
      if_false, true_or]
  · have hjd : ¬ (j = d ∧ j < grid.length) := fun hh => hdj hh.1.symm
    rw [if_neg hjd]
    by_cases hdm : grid.getD d 0 = MINE
    · simp only [hdm, ne_eq, not_true_eq_false, false_and, and_false, if_false, or_true]
    · have e := hcell d hd hdm
      have hle := mineNeighbours_le w h grid d hlen hd
      simp only [hdj, hdm, or_self, iff_false]
      unfold ZERO MINE at *
      split_ifs <;> omega

theorem mem_drawnCells_lt (size : Nat) (rands : List Nat) (j : Nat)
    (h : j ∈ drawnCells size rands) : j < size := by
  unfold drawnCells at h
  rw [List.mem_toFinset, List.mem_filterMap] at h
  obtain ⟨r, -, hr⟩ := h
  exact getrand_lt size r j hr

theorem drawnCells_cons (size r j : Nat) (rs : List Nat) (h : getrand size r = some j) :
    drawnCells size (r :: rs) = insert j (drawnCells size rs) := by
  unfold drawnCells
  rw [List.filterMap_cons_some h, List.toFinset_cons]

theorem drawnCells_zero (rands : List Nat) : drawnCells 0 rands = ∅ := by
  apply Finset.eq_empty_of_forall_not_mem
  intro j hj
  exact absurd (mem_drawnCells_lt 0 rands j hj) (Nat.not_lt_zero j)

/-- Progress of the placement loop: it ends with the mines asked for, or with one
more mine for every new cell among those drawn. -/
theorem placeMines_progress (w h : Nat) (n : Int) (rs : List Nat) (grid : List Nat) (i : Int)
    (hinv : PlaceInv w h grid i) :
    n ≤ (placeMines w h (w * h) n rs grid i).2.1 ∨
    i + (((drawnCells (w * h) rs).filter (fun j => grid.getD j 0 ≠ MINE)).card : Int) ≤
      (placeMines w h (w * h) n rs grid i).2.1 := by
  induction rs generalizing grid i with
  | nil =>
    right
    unfold placeMines drawnCells
    simp
  | cons r rs ih =>
    unfold placeMines
    by_cases hlt : i < n
    · rw [if_pos hlt]
      cases hg : getrand (w * h) r with
      | none =>
        right
        have h0 : w * h = 0 := by
          unfold getrand at hg
          split_ifs at hg with h0
          exact h0
        simp only [h0, drawnCells_zero, Finset.filter_empty, Finset.card_empty]
        omega
      | some j =>
        simp only
        have hj := getrand_lt _ _ _ hg
        rw [drawnCells_cons _ _ _ _ hg]
        by_cases hm : grid.getD j 0 = MINE
        · rw [placeStep_mine w h grid i j hm]
          simp only
          rw [Finset.filter_insert, if_neg (not_not.mpr hm)]
          exact ih grid i hinv
        · have hinv1 := placeStep_inv w h grid i j hinv hj
          have hmines := placeStep_mines w h grid i j hinv hj hm
          have e2 : (placeStep w h grid i j).2 = i + 1 := by
            rw [placeStep_place w h grid i j hm]
          rw [e2] at hinv1 ⊢
          rcases ih _ _ hinv1 with h1 | h1
          · exact Or.inl h1
          · right
            have hsub : (insert j (drawnCells (w * h) rs)).filter
                  (fun d => grid.getD d 0 ≠ MINE) ⊆
                insert j ((drawnCells (w * h) rs).filter
                  (fun d => (placeStep w h grid i j).1.getD d 0 ≠ MINE)) := by
              intro d hd
              rw [Finset.mem_filter, Finset.mem_insert] at hd
              rw [Finset.mem_insert, Finset.mem_filter]
              by_cases hdj : d = j
              · exact Or.inl hdj
              · rcases hd.1 with e | e
                · exact absurd e hdj
                · refine Or.inr ⟨e, ?_⟩
                  intro hc
                  rcases (hmines d (mem_drawnCells_lt _ _ _ e)).mp hc with e1 | e1
                  · exact hdj e1
                  · exact hd.2 e1
            have hcard := (Finset.card_le_card hsub).trans (Finset.card_insert_le _ _)
            have hcast : (((insert j (drawnCells (w * h) rs)).filter
                (fun d => grid.getD d 0 ≠ MINE)).card : Int) ≤
                (((drawnCells (w * h) rs).filter
                  (fun d => (placeStep w h grid i j).1.getD d 0 ≠ MINE)).card : Int) + 1 := by
              exact_mod_cast hcard
            omega
    · rw [if_neg hlt]
      left
      simp only
      omega

/-- The branch of `initGame` taken when the placement loop has finished. -/
theorem initGame_done (m : Machine)
    (h : ¬ (placeMines m.g_width m.g_height m.g_gridsize m.g_minecount m.rands
          (memset m.g_grid ZERO m.g_gridsize) 0).2.1 < m.g_minecount) :
    ∃ m1, initGame m = Outcome.ret m1 := by
  unfold initGame
  simp only
  rw [if_neg h]
  exact ⟨_, rfl⟩

theorem initGame_finishes (m : Machine) (hsize : m.g_gridsize = m.g_width * m.g_height)
    (hlen : m.g_grid.length = m.g_gridsize)
    (hdraw : m.g_minecount ≤ ((drawnCells m.g_gridsize m.rands).card : Int)) :
    ∃ m1, initGame m = Outcome.ret m1 := by
  apply initGame_done
  rw [memset_eq _ _ _ hlen, hsize]
  have hp := placeMines_progress m.g_width m.g_height m.g_minecount m.rands _ 0
    (placeInv_start m.g_width m.g_height)
  have hall : (drawnCells (m.g_width * m.g_height) m.rands).filter
      (fun j => (List.replicate (m.g_width * m.g_height) ZERO).getD j 0 ≠ MINE) =
      drawnCells (m.g_width * m.g_height) m.rands := by
    apply Finset.filter_true_of_mem
    intro j _
    rw [List.getD_eq_getElem?_getD, List.getElem?_replicate]
    split_ifs <;> simp [ZERO, MINE]
  rw [hall, ← hsize] at hp
  rw [← hsize]
  omega

/-- Draws that all land on mines leave the count of placed mines as it was. -/
theorem placeMines_rejected (w h size : Nat) (n : Int) (rs : List Nat) (grid : List Nat)
    (i : Int) (hrej : ∀ r, r ∈ rs → ∀ j, getrand size r = some j → grid.getD j 0 = MINE) :
    (placeMines w h size n rs grid i).2.1 = i := by
  induction rs with
  | nil => rfl
  | cons r rs ih =>
    unfold placeMines
    split_ifs
    · cases hg : getrand size r with
      | none => rfl
      | some j =>
        simp only
        rw [placeStep_mine w h grid i j (hrej r (List.mem_cons_self _ _) j hg)]
        exact ih (fun r1 hr1 => hrej r1 (List.mem_cons_of_mem _ hr1))
    · rfl

theorem returned_iff (o : Outcome) : o.returned = true ↔ ∃ m1, o = Outcome.ret m1 := by
  cases o with
  | ret m => exact ⟨fun _ => ⟨m, rfl⟩, fun _ => rfl⟩
  | halt m => exact ⟨fun h => Bool.noConfusion h, fun ⟨_, h⟩ => Outcome.noConfusion h⟩
  | stuck m => exact ⟨fun h => Bool.noConfusion h, fun ⟨_, h⟩ => Outcome.noConfusion h⟩

/-- The placement loop places at most one mine for every new cell among those
drawn. -/
theorem placeMines_bound (w h : Nat) (n : Int) (rs : List Nat) (grid : List Nat) (i : Int)
    (hinv : PlaceInv w h grid i) :
    (placeMines w h (w * h) n rs grid i).2.1 ≤
      i + (((drawnCells (w * h) rs).filter (fun j => grid.getD j 0 ≠ MINE)).card : Int) := by
  induction rs generalizing grid i with
  | nil =>
    unfold placeMines drawnCells
    simp
  | cons r rs ih =>
    unfold placeMines
    by_cases hlt : i < n
    · rw [if_pos hlt]
      cases hg : getrand (w * h) r with
      | none =>
        simp only
        omega
      | some j =>
        simp only
        have hj := getrand_lt _ _ _ hg
        rw [drawnCells_cons _ _ _ _ hg]
        by_cases hm : grid.getD j 0 = MINE
        · rw [placeStep_mine w h grid i j hm]
          simp only
          rw [Finset.filter_insert, if_neg (not_not.mpr hm)]
          exact ih grid i hinv
        · have hinv1 := placeStep_inv w h grid i j hinv hj
          have hmines := placeStep_mines w h grid i j hinv hj hm
          have e2 : (placeStep w h grid i j).2 = i + 1 := by
            rw [placeStep_place w h grid i j hm]
          rw [e2] at hinv1 ⊢
          have h1 := ih _ _ hinv1
          have hnot : j ∉ (drawnCells (w * h) rs).filter
              (fun d => (placeStep w h grid i j).1.getD d 0 ≠ MINE) := by
            intro hc
            exact (Finset.mem_filter.mp hc).2 ((hmines j hj).mpr (Or.inl rfl))
          have hsub : insert j ((drawnCells (w * h) rs).filter
                (fun d => (placeStep w h grid i j).1.getD d 0 ≠ MINE)) ⊆
              (insert j (drawnCells (w * h) rs)).filter (fun d => grid.getD d 0 ≠ MINE) := by
            intro d hd
            rw [Finset.mem_insert, Finset.mem_filter] at hd
            rw [Finset.mem_filter, Finset.mem_insert]
            rcases hd with e | ⟨e, e1⟩
            · exact ⟨Or.inl e, e ▸ hm⟩
            · exact ⟨Or.inr e, fun hc =>
                e1 ((hmines d (mem_drawnCells_lt _ _ _ e)).mpr (Or.inr hc))⟩
          have hcard := Finset.card_le_card hsub
          rw [Finset.card_insert_of_not_mem hnot] at hcard
          have hcast : (((drawnCells (w * h) rs).filter
                (fun d => (placeStep w h grid i j).1.getD d 0 ≠ MINE)).card : Int) + 1 ≤
              (((insert j (drawnCells (w * h) rs)).filter
                (fun d => grid.getD d 0 ≠ MINE)).card : Int) := by
            exact_mod_cast hcard
          omega
    · rw [if_neg hlt]
      simp only
      omega

/-- The value `initGame` returns exactly when the placement loop has drawn enough
distinct cells. -/
theorem initGame_returns_iff (m : Machine) (hsize : m.g_gridsize = m.g_width * m.g_height)
    (hlen : m.g_grid.length = m.g_gridsize) :
    (∃ m1, initGame m = Outcome.ret m1) ↔
      m.g_minecount ≤ ((drawnCells m.g_gridsize m.rands).card : Int) := by
  constructor
  · rintro ⟨m1, h⟩
    obtain ⟨-, hdone⟩ := initGame_ret _ m1 h
    have hb := placeMines_bound m.g_width m.g_height m.g_minecount m.rands
      (List.replicate (m.g_width * m.g_height) ZERO) 0 (placeInv_start m.g_width m.g_height)
    have hle := Finset.card_filter_le (drawnCells (m.g_width * m.g_height) m.rands)
      (fun j => (List.replicate (m.g_width * m.g_height) ZERO).getD j 0 ≠ MINE)
    rw [memset_eq _ _ _ hlen, hsize] at hdone
    rw [hsize]
    have hle2 : (((drawnCells (m.g_width * m.g_height) m.rands).filter
        (fun j => (List.replicate (m.g_width * m.g_height) ZERO).getD j 0 ≠ MINE)).card : Int) ≤
        ((drawnCells (m.g_width * m.g_height) m.rands).card : Int) := by
      exact_mod_cast hle
    omega
  · exact initGame_finishes m hsize hlen

theorem mem_drawnCells (size : Nat) (rands : List Nat) (j : Nat) :
    j ∈ drawnCells size rands ↔ ∃ r, r ∈ rands ∧ getrand size r = some j := by
  unfold drawnCells
  rw [List.mem_toFinset, List.mem_filterMap]

/-- The cells drawn by a sequence of cell indices are its values. -/
theorem drawnCells_drawList {size n : Nat} (f : Fin n → Fin size) :
    drawnCells size (drawList f) = (Finset.univ.image f).image Fin.val := by
  ext x
  rw [mem_drawnCells, Finset.mem_image]
  constructor
  · rintro ⟨r, hr, hg⟩
    unfold drawList at hr
    rw [List.mem_ofFn] at hr
    obtain ⟨i, rfl⟩ := hr
    refine ⟨f i, Finset.mem_image_of_mem f (Finset.mem_univ i), ?_⟩
    unfold getrand at hg
    split_ifs at hg
    rw [Nat.mod_eq_of_lt (f i).isLt] at hg
    exact Option.some.inj hg
  · rintro ⟨a, ha, rfl⟩
    obtain ⟨i, -, rfl⟩ := Finset.mem_image.mp ha
    refine ⟨(f i).val, ?_, ?_⟩
    · unfold drawList
      rw [List.mem_ofFn]
      exact ⟨i, rfl⟩
    · unfold getrand
      rw [if_neg (Nat.not_eq_zero_of_lt (f i).isLt), Nat.mod_eq_of_lt (f i).isLt]

theorem card_drawnCells_drawList {size n : Nat} (f : Fin n → Fin size) :
    (drawnCells size (drawList f)).card = (Finset.univ.image f).card := by
  rw [drawnCells_drawList, Finset.card_image_of_injective _ Fin.val_injective]

/-- Sequences of `n` values among `s` that take at most `k` distinct values: there
are at most `2 ^ s * k ^ n` of them. -/
theorem card_few_values (s n k : Nat) (A : Finset (Fin n → Fin s))
    (hA : ∀ f ∈ A, (Finset.univ.image f).card ≤ k) :
    A.card ≤ 2 ^ s * k ^ n := by
  have hsub : A ⊆ ((Finset.univ : Finset (Fin s)).powerset.filter (fun S => S.card ≤ k)).biUnion
      (fun S => Fintype.piFinset (fun _ : Fin n => S)) := by
    intro f hf
    rw [Finset.mem_biUnion]
    refine ⟨Finset.univ.image f, ?_, ?_⟩
    · rw [Finset.mem_filter, Finset.mem_powerset]
      exact ⟨Finset.subset_univ _, hA f hf⟩
    · rw [Fintype.mem_piFinset]
      intro i
      exact Finset.mem_image_of_mem f (Finset.mem_univ i)
  calc A.card ≤ _ := Finset.card_le_card hsub
    _ ≤ ∑ S in (Finset.univ : Finset (Fin s)).powerset.filter (fun S => S.card ≤ k),
          (Fintype.piFinset (fun _ : Fin n => S)).card := Finset.card_biUnion_le
    _ ≤ ∑ _S in (Finset.univ : Finset (Fin s)).powerset.filter (fun S => S.card ≤ k), k ^ n := by
        apply Finset.sum_le_sum
        intro S hS
        rw [Fintype.card_piFinset, Finset.prod_const, Finset.card_univ, Fintype.card_fin]
        exact Nat.pow_le_pow_left (Finset.mem_filter.mp hS).2 n
    _ = ((Finset.univ : Finset (Fin s)).powerset.filter (fun S => S.card ≤ k)).card * k ^ n := by
        rw [Finset.sum_const, smul_eq_mul]
    _ ≤ 2 ^ s * k ^ n := by
        apply Nat.mul_le_mul_right
        calc _ ≤ ((Finset.univ : Finset (Fin s)).powerset).card := Finset.card_filter_le _ _
          _ = 2 ^ s := by rw [Finset.card_powerset, Finset.card_univ, Fintype.card_fin]

theorem mem_stalled (m : Machine) (n : Nat) (f : Fin n → Fin m.g_gridsize) :
    f ∈ stalled m n ↔ ¬ ∃ m1, initGame { m with rands := drawList f } = Outcome.ret m1 := by
  unfold stalled
  rw [Finset.mem_filter, ← returned_iff]
  simp only [Finset.mem_univ, true_and, Bool.not_eq_true]

/-- With at most half the cells mined, the sequences of `n` draws that leave the
placement loop unfinished are at most the fraction `2 ^ size / 2 ^ n` of all. -/
theorem card_stalled (m : Machine) (hsize : m.g_gridsize = m.g_width * m.g_height)
    (hlen : m.g_grid.length = m.g_gridsize)
    (hm : m.g_minecount ≤ ((m.g_width * m.g_height / 2 : Nat) : Int)) (n : Nat) :
    2 ^ n * (stalled m n).card ≤ 2 ^ m.g_gridsize * m.g_gridsize ^ n := by
  have hA : ∀ f ∈ stalled m n, (Finset.univ.image f).card ≤ m.g_gridsize / 2 := by
    intro f hf
    rw [mem_stalled] at hf
    have hi := initGame_returns_iff { m with rands := drawList f } hsize hlen
    rw [hi] at hf
    simp only at hf
    rw [card_drawnCells_drawList] at hf
    omega
  have h1 := card_few_values m.g_gridsize n (m.g_gridsize / 2) (stalled m n) hA
  have h2 : 2 ^ n * (m.g_gridsize / 2) ^ n ≤ m.g_gridsize ^ n := by
    rw [← Nat.mul_pow]
    exact Nat.pow_le_pow_left (Nat.mul_div_le m.g_gridsize 2) n
  calc 2 ^ n * (stalled m n).card ≤ 2 ^ n * (2 ^ m.g_gridsize * (m.g_gridsize / 2) ^ n) :=
        Nat.mul_le_mul_left _ h1
    _ = 2 ^ m.g_gridsize * (2 ^ n * (m.g_gridsize / 2) ^ n) := by ring
    _ ≤ 2 ^ m.g_gridsize * m.g_gridsize ^ n := Nat.mul_le_mul_left _ h2

theorem card_stalled_le (m : Machine) (n : Nat) : (stalled m n).card ≤ m.g_gridsize ^ n := by
  calc (stalled m n).card ≤ (Finset.univ : Finset (Fin n → Fin m.g_gridsize)).card :=
        Finset.card_le_card (Finset.subset_univ _)
    _ = m.g_gridsize ^ n := by
        rw [Finset.card_univ, Fintype.card_fun, Fintype.card_fin, Fintype.card_fin]

/-- A sum of terms that are at most 1 and at most `2 ^ s / 2 ^ n` is at most
`s + 2`. -/
theorem sum_geometric_tail (s : Nat) (a : Nat → ℚ) (h1 : ∀ n, a n ≤ 1)
    (h2 : ∀ n, a n ≤ (2 : ℚ) ^ s / (2 : ℚ) ^ n) (N : Nat) :
    ∑ n in Finset.range N, a n ≤ (s : ℚ) + 2 := by
  have hsmall : ∀ N, ∑ n in Finset.range N, a n ≤ (N : ℚ) := by
    intro N
    induction N with
    | zero => simp
    | succ N ih =>
      rw [Finset.sum_range_succ]
      have := h1 N
      push_cast
      linarith
  have hbig : ∀ N, s ≤ N →
      ∑ n in Finset.range N, a n ≤ (s : ℚ) + 2 - 2 * ((2 : ℚ) ^ s / (2 : ℚ) ^ N) := by
    intro N hN
    induction N, hN using Nat.le_induction with
    | base =>
      have h := hsmall s
      have hpos : (0 : ℚ) < (2 : ℚ) ^ s := by positivity
      rw [div_self (ne_of_gt hpos)]
      linarith
    | succ N _ ih =>
      rw [Finset.sum_range_succ]
      have h := h2 N
      have hpos : (0 : ℚ) < (2 : ℚ) ^ N := by positivity
      have e : (2 : ℚ) ^ s / (2 : ℚ) ^ (N + 1) = (2 : ℚ) ^ s / (2 : ℚ) ^ N / 2 := by
        rw [pow_succ, div_mul_eq_div_div]
      rw [e]
      linarith
  rcases Nat.lt_or_ge N s with h | h
  · have h3 := hsmall N
    have h4 : (N : ℚ) ≤ (s : ℚ) := by exact_mod_cast h.le
    linarith
  · have h3 := hbig N h
    have hpos : (0 : ℚ) ≤ (2 : ℚ) ^ s / (2 : ℚ) ^ N := by positivity
    linarith

/-- With at most half the cells mined and uniform draws, the expected number of
draws of the placement loop is at most `size + 2`: the sum over `n` of the share of
sequences of `n` draws that leave the loop unfinished. -/
theorem sum_stalled (m : Machine) (hsize : m.g_gridsize = m.g_width * m.g_height)
    (hlen : m.g_grid.length = m.g_gridsize)
    (hm : m.g_minecount ≤ ((m.g_width * m.g_height / 2 : Nat) : Int)) (N : Nat) :
    ∑ n in Finset.range N, ((stalled m n).card : ℚ) / (m.g_gridsize : ℚ) ^ n ≤
      (m.g_gridsize : ℚ) + 2 := by
  apply sum_geometric_tail
  · intro n
    apply div_le_one_of_le₀
    · exact_mod_cast card_stalled_le m n
    · positivity
  · intro n
    have h := card_stalled m hsize hlen hm n
    have hq : (2 : ℚ) ^ n * ((stalled m n).card : ℚ) ≤
        (2 : ℚ) ^ m.g_gridsize * (m.g_gridsize : ℚ) ^ n := by exact_mod_cast h
    rcases Nat.eq_zero_or_pos (m.g_gridsize ^ n) with h0 | h0
    · have hz : ((m.g_gridsize : ℚ)) ^ n = 0 := by exact_mod_cast h0
      rw [hz, div_zero]
      positivity
    · have hp : (0 : ℚ) < (m.g_gridsize : ℚ) ^ n := by exact_mod_cast h0
      have h2 : (0 : ℚ) < (2 : ℚ) ^ n := by positivity
      rw [div_le_div_iff₀ hp h2]
      linarith

/-! ### The invariant after `initGame` -/

/-- The grid `initGame` generates satisfies the adjacency invariant. -/
theorem initGame_adjInvariant (m m' : Machine) (hsize : m.g_gridsize = m.g_width * m.g_height)
    (hlen : m.g_grid.length = m.g_gridsize) (hret : initGame m = Outcome.ret m') :
    AdjInvariant m' := by
  obtain ⟨hw, hh, hs, -, hl, hcell, -⟩ := initGame_grid m m' hsize hlen hret
  refine ⟨by rw [hs, hw, hh, hsize], by rw [hl, hs, hsize], ?_⟩
  intro c hc hcm
  rw [hw]
  exact hcell c (by rw [← hsize, ← hs]; exact hc) hcm

/-! ## Facts about the concrete boards -/

theorem demo_initGame : initGame demoBoot = Outcome.ret demoGame := by decide

theorem demo_allocated : Allocated demoBoot := by
  unfold Allocated
  decide

theorem demo_adjInvariant : AdjInvariant demoGame :=
  initGame_adjInvariant demoBoot demoGame rfl rfl demo_initGame

theorem demo_iter : runGame_iter 5 demoGame = some (Outcome.ret demoFlagged) := by decide

theorem demo_reachable : Reachable demoFlagged :=
  Reachable.iter 5 demoGame demoFlagged
    (Reachable.start demoBoot demoGame demo_allocated demo_initGame) demo_iter

set_option maxRecDepth 100000 in
theorem easy_initGame : initGame easyBoot = Outcome.ret easyGame := by decide

theorem easy_adjInvariant : AdjInvariant (flag easyGame 59) :=
  initGame_adjInvariant easyBoot easyGame rfl rfl easy_initGame

set_option maxRecDepth 100000 in
theorem row_initGame : initGame rowBoot = Outcome.ret rowGame := by decide

set_option maxRecDepth 100000 in
theorem corner_initGame : initGame cornerBoot = Outcome.ret cornerGame := by decide

theorem row_adjInvariant : AdjInvariant rowGame :=
  initGame_adjInvariant rowBoot rowGame rfl rfl row_initGame

theorem corner_adjInvariant : AdjInvariant cornerGame :=
  initGame_adjInvariant cornerBoot cornerGame rfl rfl corner_initGame

/-- On the 9 by 9 board, when `rand()` always returns 0 the placement loop never
places a second mine. -/
theorem easy_constant_draws (n : Nat) :
    (placeMines 9 9 81 10 (List.replicate n 0) (List.replicate 81 ZERO) 0).2.1 < 10 := by
  cases n with
  | zero => decide
  | succ n =>
    have hinv := placeInv_start 9 9
    have hm : (List.replicate (9 * 9) ZERO).getD 0 0 ≠ MINE := by decide
    have h1 := (placeStep_mines 9 9 _ 0 0 hinv (by decide) hm 0 (by decide)).mpr (Or.inl rfl)
    have h2 : (placeStep 9 9 (List.replicate (9 * 9) ZERO) 0 0).2 = 1 := by
      rw [placeStep_place 9 9 _ 0 0 hm]
      rfl
    rw [List.replicate_succ]
    unfold placeMines
    rw [if_pos (by decide)]
    have hg : getrand 81 0 = some 0 := by decide
    rw [hg]
    simp only
    rw [placeMines_rejected]
    · rw [h2]; decide
    · intro r hr j hj
      rw [List.eq_of_mem_replicate hr, hg] at hj
      simp only [Option.some.injEq] at hj
      rw [← hj]
      exact h1

/-! ## The claims -/

/-- Claim C1: whatever the width, the height, the mine count and the random values,
when `initGame` returns (the placement loop has finished) the grid has
`g_width * g_height` cells and every cell that is not a mine holds the character of
the number `k` of mines among its lattice neighbours inside the grid (row and column
each differ by at most 1, no wrap): `k` is at most 8, the cell is `'0' + k` for
`k >= 1` and `' '` for `k = 0`. -/
theorem C1_adjacency_counts (m m' : Machine)
    (hsize : m.g_gridsize = m.g_width * m.g_height)
    (hlen : m.g_grid.length = m.g_gridsize) (hret : initGame m = Outcome.ret m') :
    m'.g_grid.length = m'.g_width * m'.g_height ∧
    ∀ c, c < m'.g_width * m'.g_height → m'.g_grid.getD c 0 ≠ MINE →
      mineNeighbours m'.g_width m'.g_grid c ≤ 8 ∧
      m'.g_grid.getD c 0 = cellChar (mineNeighbours m'.g_width m'.g_grid c) := by
  obtain ⟨hw, hh, -, -, hl, hcell, -⟩ := initGame_grid m m' hsize hlen hret
  rw [hw, hh]
  refine ⟨hl, ?_⟩
  intro c hc hcm
  exact ⟨mineNeighbours_le _ _ _ c hl hc, hcell c hc hcm⟩

/-- Claim C1 on the 3 by 3 board: the centre cell has the two corner mines around
it and holds `'2'`. -/
theorem C1_adjacency_counts_witness :
    initGame demoBoot = Outcome.ret demoGame ∧
    mineNeighbours 3 demoGame.g_grid 4 ≤ 8 ∧
    demoGame.g_grid.getD 4 0 = cellChar (mineNeighbours 3 demoGame.g_grid 4) :=
  ⟨demo_initGame,
    (C1_adjacency_counts demoBoot demoGame rfl rfl demo_initGame).2 4 (by decide) (by decide)⟩

/-- Claim C2: for a mine count that is not negative (so for every mine count from 1
to half the number of cells) and whatever the random values, when `initGame`
returns exactly `g_minecount` cells of the grid are mines; and an iteration of the
placement loop whose draw `j` lands on a mine leaves the grid and the count `i` of
placed mines as they were. -/
theorem C2_mine_count (m m' : Machine) (hsize : m.g_gridsize = m.g_width * m.g_height)
    (hlen : m.g_grid.length = m.g_gridsize) (hn : 0 ≤ m.g_minecount)
    (hret : initGame m = Outcome.ret m') :
    (mineCells m'.g_grid : Int) = m'.g_minecount ∧
    ∀ (grid : List Nat) (i : Int) (j : Nat), grid.getD j 0 = MINE →
      placeStep m.g_width m.g_height grid i j = (grid, i) := by
  obtain ⟨-, -, -, hmc, -, -, hcnt⟩ := initGame_grid m m' hsize hlen hret
  rw [hmc]
  exact ⟨hcnt hn, fun grid i j hj => placeStep_mine _ _ grid i j hj⟩

/-- Claim C2 on the 3 by 3 board: two mines were asked for and two cells are mines,
although three values were drawn. -/
theorem C2_mine_count_witness :
    initGame demoBoot = Outcome.ret demoGame ∧ (mineCells demoGame.g_grid : Int) = 2 :=
  ⟨demo_initGame, (C2_mine_count demoBoot demoGame rfl rfl (by decide) demo_initGame).1⟩

/-- Claim C4: `check_win` returns true exactly when every cell that is not a mine
is visible; replacing the visibility array by one that agrees with it on the cells
that are not mines does not change the result, so the visibility of the mines
(flagged, hidden or anything else) plays no part. -/
theorem C4_check_win (m : Machine) :
    (check_win m = true ↔
      ∀ c, c < m.g_gridsize → m.g_grid.getD c 0 ≠ MINE →
        m.g_state.getD c STATE_VISIBLE = STATE_VISIBLE) ∧
    (∀ st : List state_t,
      (∀ c, c < m.g_gridsize → m.g_grid.getD c 0 ≠ MINE →
        st.getD c STATE_VISIBLE = m.g_state.getD c STATE_VISIBLE) →
      check_win { m with g_state := st } = check_win m) := by
  refine ⟨check_win_iff m, ?_⟩
  intro st hst
  rw [Bool.eq_iff_iff, check_win_iff, check_win_iff]
  constructor
  · intro h c hc hm
    rw [← hst c hc hm]
    exact h c hc hm
  · intro h c hc hm
    show st.getD c STATE_VISIBLE = STATE_VISIBLE
    rw [hst c hc hm]
    exact h c hc hm

/-- Claim C5: when the cell `idx` is a mine and is hidden, `show(idx)` with any
fuel ends (returning, exiting or waiting) in a state whose log is the log before
the call followed by exactly one `lost` message; the grid that message shows is the
grid before the call with the visibility of `idx` alone set to visible, whatever the
visibility of the other cells. -/
theorem C5_mine_loses (fuel : Nat) (m : Machine) (idx : Nat)
    (hmine : m.g_grid.getD idx 0 = MINE)
    (hhid : m.g_state.getD idx STATE_VISIBLE = STATE_HIDDEN) :
    ∃ o, show_idx (fuel + 1) m idx = some o ∧
      o.machine.log = m.log ++ [Event.lost
        { grid := m.g_grid, state := m.g_state.set idx STATE_VISIBLE,
          selx := m.g_selx, sely := m.g_sely }] ∧
      ∀ c, c ≠ idx →
        (m.g_state.set idx STATE_VISIBLE).getD c STATE_VISIBLE =
          m.g_state.getD c STATE_VISIBLE := by
  refine ⟨_, show_idx_mine fuel m idx hmine hhid, ?_, ?_⟩
  · rw [andThen_initGame_log]
    unfold lose
    rw [continue_or_quit_log]
    rfl
  · intro c hc
    exact getD_set_ne _ _ _ _ _ (fun h => hc h.symm)

/-- Claim C5 on the 3 by 3 board: revealing the mine in corner 0. -/
theorem C5_mine_loses_witness :
    demoGame.g_grid.getD 0 0 = MINE ∧
    demoGame.g_state.getD 0 STATE_VISIBLE = STATE_HIDDEN ∧
    ∃ o, show_idx 1 demoGame 0 = some o ∧
      o.machine.log = demoGame.log ++ [Event.lost
        { grid := demoGame.g_grid, state := demoGame.g_state.set 0 STATE_VISIBLE,
          selx := demoGame.g_selx, sely := demoGame.g_sely }] ∧
      ∀ c, c ≠ 0 →
        (demoGame.g_state.set 0 STATE_VISIBLE).getD c STATE_VISIBLE =
          demoGame.g_state.getD c STATE_VISIBLE :=
  ⟨by decide, by decide, C5_mine_loses 0 demoGame 0 (by decide) (by decide)⟩

/-- Claim C6: on a cell whose visibility is visible, flagged or unsure, mine or not,
`show(idx)` returns at once with the whole state unchanged: visibility array, grid,
`g_flagged`, cursor, inputs and log (no loss is signalled). -/
theorem C6_show_noop (fuel : Nat) (m : Machine) (idx : Nat)
    (hvis : m.g_state.getD idx STATE_VISIBLE = STATE_VISIBLE ∨
      m.g_state.getD idx STATE_VISIBLE = STATE_FLAG ∨
      m.g_state.getD idx STATE_VISIBLE = STATE_UNSURE) :
    show_idx (fuel + 1) m idx = some (Outcome.ret m) := by
  unfold show_idx
  have : m.g_state.getD idx STATE_VISIBLE ≠ STATE_HIDDEN := by
    rcases hvis with h | h | h <;> rw [h] <;> decide
  simp only [this, if_false]

/-- Claim C6 on the 3 by 3 board with the centre flagged. -/
theorem C6_show_noop_witness :
    demoFlagged.g_state.getD 4 STATE_VISIBLE = STATE_FLAG ∧
    show_idx 1 demoFlagged 4 = some (Outcome.ret demoFlagged) :=
  ⟨by decide, C6_show_noop 0 demoFlagged 4 (Or.inr (Or.inl (by decide)))⟩

/-- Claim C7: `flag(idx)` on a cell of the visibility array turns hidden into
flagged and adds 1 to `g_flagged`, turns flagged into hidden and subtracts 1, and
leaves the state unchanged on a visible cell; the visibility of every other cell
and the grid never change; two calls in a row give back the state before them. -/
theorem C7_flag (m : Machine) (idx : Nat) (hidx : idx < m.g_state.length) :
    (m.g_state.getD idx STATE_VISIBLE = STATE_HIDDEN →
      (flag m idx).g_state.getD idx STATE_VISIBLE = STATE_FLAG ∧
      (flag m idx).g_flagged = m.g_flagged + 1) ∧
    (m.g_state.getD idx STATE_VISIBLE = STATE_FLAG →
      (flag m idx).g_state.getD idx STATE_VISIBLE = STATE_HIDDEN ∧
      (flag m idx).g_flagged = m.g_flagged - 1) ∧
    (m.g_state.getD idx STATE_VISIBLE = STATE_VISIBLE → flag m idx = m) ∧
    (∀ c, c ≠ idx →
      (flag m idx).g_state.getD c STATE_VISIBLE = m.g_state.getD c STATE_VISIBLE) ∧
    (flag m idx).g_grid = m.g_grid ∧
    flag (flag m idx) idx = m := by
  refine ⟨?_, ?_, ?_, ?_, ?_, flag_flag m idx hidx⟩
  · intro h
    unfold flag
    rw [if_pos h]
    exact ⟨getD_set_self _ _ _ _ hidx, rfl⟩
  · intro h
    unfold flag
    rw [if_neg (by rw [h]; decide), if_pos h]
    exact ⟨getD_set_self _ _ _ _ hidx, rfl⟩
  · intro h
    unfold flag
    rw [if_neg (by rw [h]; decide), if_neg (by rw [h]; decide)]
  · intro c hc
    unfold flag
    split_ifs
    · exact getD_set_ne _ _ _ _ _ (fun h => hc h.symm)
    · exact getD_set_ne _ _ _ _ _ (fun h => hc h.symm)
    · rfl
  · unfold flag
    split_ifs <;> rfl

/-- Claim C7 on the 3 by 3 board: flagging the hidden centre gives `demoFlagged` up
to the keys and the clock, and flagging twice gives the board back. -/
theorem C7_flag_witness :
    (4 < demoGame.g_state.length) ∧
    (flag demoGame 4).g_state.getD 4 STATE_VISIBLE = STATE_FLAG ∧
    (flag demoGame 4).g_flagged = demoGame.g_flagged + 1 ∧
    flag (flag demoGame 4) 4 = demoGame :=
  ⟨by decide, ((C7_flag demoGame 4 (by decide)).1 (by decide)).1,
    ((C7_flag demoGame 4 (by decide)).1 (by decide)).2,
    (C7_flag demoGame 4 (by decide)).2.2.2.2.2⟩

/-- Claim C8: in every state reachable from `initGame` by iterations of the game
loop (cursor keys, `f`, reveal keys, other keys, and the new game after a win or a
loss), `g_flagged` is the number of cells whose visibility is flagged. -/
theorem C8_flagged_count (m : Machine) (h : Reachable m) :
    m.g_flagged = (flagCount m : Int) :=
  (reachable_inv m h).2.2.2

/-- Claim C8 on the 3 by 3 board after the key `f`: one flag, one flagged cell. -/
theorem C8_flagged_count_witness :
    Reachable demoFlagged ∧ demoFlagged.g_flagged = (flagCount demoFlagged : Int) :=
  ⟨demo_reachable, C8_flagged_count demoFlagged demo_reachable⟩

/-- Claim C9 fails as stated: with `-w 39 -h 20 -m 300` the grid is 39 by 20, so
half the cells is 390 and 300 clamped to `[1, 390]` is 300, but the game starts with
`CHAR_MAX` mines: 127 where `char` is signed, 255 where it is not. -/
theorem C9_counterexample :
    (main_settings 127 [getopt_t.opt_w 39, getopt_t.opt_h 20, getopt_t.opt_m 300]).map
        (fun s => (s.g_width, s.g_height, s.g_minecount)) = some (39, 20, 127) ∧
    (main_settings 255 [getopt_t.opt_w 39, getopt_t.opt_h 20, getopt_t.opt_m 300]).map
        (fun s => (s.g_width, s.g_height, s.g_minecount)) = some (39, 20, 255) ∧
    clamp 1 ((39 * 20) / 2) 300 = 300 := by
  decide

/-- Claim C9, amended: in custom mode with `-w w`, `-h h` and `-m m` given once
each in any order, and `CHAR_MAX` at least 127, the game starts with the width `w`
clamped to `[9, 39]`, the height `h` clamped to `[9, 20]`, and the mine count
`min m CHAR_MAX` (the cap of `parseint`) clamped to `[1, (width * height) / 2]`
computed from the clamped width and height. -/
theorem C9_custom_clamp (CHAR_MAX : Int) (hc : 127 ≤ CHAR_MAX) (w h m : Int)
    (opts : List getopt_t)
    (hp : opts.Perm [getopt_t.opt_w w, getopt_t.opt_h h, getopt_t.opt_m m]) :
    ∃ s, main_settings CHAR_MAX opts = some s ∧ s.g_mode = MODE_CUSTOM ∧
      s.g_width = clamp 9 39 w ∧ s.g_height = clamp 9 20 h ∧
      s.g_minecount = clamp 1 ((s.g_width * s.g_height) / 2) (min m CHAR_MAX) := by
  have key : ∀ s0 : Settings, s0.g_mode = MODE_CUSTOM → s0.g_width = parseint CHAR_MAX w →
      s0.g_height = parseint CHAR_MAX h → s0.g_minecount = parseint CHAR_MAX m →
      (main_mode s0).g_mode = MODE_CUSTOM ∧
      (main_mode s0).g_width = clamp 9 39 w ∧ (main_mode s0).g_height = clamp 9 20 h ∧
      (main_mode s0).g_minecount =
        clamp 1 (((main_mode s0).g_width * (main_mode s0).g_height) / 2) (min m CHAR_MAX) := by
    intro s0 hm hw hh hn
    obtain ⟨e0, e1, e2, e3, e4⟩ := main_mode_custom s0 hm
    have r := main_mode_range s0
    rw [MAX_MINES, tdiv_two_of_nonneg _ (by have := r.1; have := r.2.2.1; positivity)] at e3 e4
    refine ⟨e0, ?_, ?_, ?_⟩
    · rw [e1, hw]; unfold clamp parseint; split_ifs <;> omega
    · rw [e2, hh]; unfold clamp parseint; split_ifs <;> omega
    · rw [e3, hn]; unfold clamp parseint; split_ifs <;> omega
  rw [← List.mem_permutations'] at hp
  simp [List.permutations', List.permutations'Aux] at hp
  rcases hp with rfl | rfl | rfl | rfl | rfl | rfl <;>
    exact ⟨_, rfl, key _ rfl rfl rfl rfl⟩

/-- Claim C9, amended, on the example of the specification: 50 mines asked for on
a 9 by 9 grid give 40. -/
theorem C9_custom_clamp_witness :
    (127 : Int) ≤ 127 ∧ clamp 1 ((clamp 9 39 9 * clamp 9 20 9) / 2) (min 50 127) = 40 ∧
    ∃ s, main_settings 127 [getopt_t.opt_m 50, getopt_t.opt_w 9, getopt_t.opt_h 9] = some s ∧
      s.g_mode = MODE_CUSTOM ∧ s.g_width = clamp 9 39 9 ∧ s.g_height = clamp 9 20 9 ∧
      s.g_minecount = clamp 1 ((s.g_width * s.g_height) / 2) (min 50 127) :=
  ⟨by decide, by decide,
    C9_custom_clamp 127 (by decide) 9 9 50
      [getopt_t.opt_m 50, getopt_t.opt_w 9, getopt_t.opt_h 9] (by decide)⟩

/-- Claim C10: whatever the options and `CHAR_MAX`, when `main` reaches `initGame`
the width is in `[9, 39]`, the height in `[9, 20]` and the mine count in
`[1, (width * height) / 2]`; the easy and unspecified modes give 9 by 9 with 10
mines, the medium mode 16 by 16 with 40 and the hard mode 30 by 16 with 99. -/
theorem C10_config_in_range (CHAR_MAX : Int) (opts : List getopt_t) (s : Settings)
    (h : main_settings CHAR_MAX opts = some s) :
    (9 ≤ s.g_width ∧ s.g_width ≤ 39 ∧ 9 ≤ s.g_height ∧ s.g_height ≤ 20 ∧
      1 ≤ s.g_minecount ∧ s.g_minecount ≤ (s.g_width * s.g_height) / 2) ∧
    (s.g_mode = MODE_EASY ∨ s.g_mode = MODE_UNKNOWN →
      s.g_width = 9 ∧ s.g_height = 9 ∧ s.g_minecount = 10) ∧
    (s.g_mode = MODE_MEDIUM → s.g_width = 16 ∧ s.g_height = 16 ∧ s.g_minecount = 40) ∧
    (s.g_mode = MODE_HARD → s.g_width = 30 ∧ s.g_height = 16 ∧ s.g_minecount = 99) := by
  unfold main_settings at h
  obtain ⟨s0, -, rfl⟩ := Option.map_eq_some'.mp h
  obtain ⟨h1, h2, h3, h4, h5, h6⟩ := main_mode_range s0
  refine ⟨⟨h1, h2, h3, h4, h5, ?_⟩, ?_, ?_, ?_⟩
  · rw [MAX_MINES, tdiv_two_of_nonneg _ (by positivity)] at h6
    exact h6
  all_goals
    cases hm : s0.g_mode <;> simp [main_mode, hm]

/-- Claim C10 on `-w 50 --hard -h -3 -m 500`: the last mode set is custom, and the
values are brought back into range. -/
theorem C10_config_in_range_witness :
    main_settings 127 [getopt_t.opt_w 50, getopt_t.long_mode MODE_HARD, getopt_t.opt_h (-3),
        getopt_t.opt_m 500] =
      some { g_mode := MODE_CUSTOM, g_width := 39, g_height := 9, g_minecount := 127,
             g_wants_color := 1 } ∧
    ((9 : Int) ≤ 39 ∧ (39 : Int) ≤ 39 ∧ (9 : Int) ≤ 9 ∧ (9 : Int) ≤ 20 ∧
      (1 : Int) ≤ 127 ∧ (127 : Int) ≤ (39 * 9) / 2) :=
  ⟨by decide,
    (C10_config_in_range 127
      [getopt_t.opt_w 50, getopt_t.long_mode MODE_HARD, getopt_t.opt_h (-3), getopt_t.opt_m 500]
      { g_mode := MODE_CUSTOM, g_width := 39, g_height := 9, g_minecount := 127,
        g_wants_color := 1 } (by decide)).1⟩

/-- Claim C11: whatever the state before, when `initGame` returns (at start-up, or
called after `lose`, or called after `win`) every cell of the grid is hidden,
`g_flagged` is 0, the cursor is at `(g_width / 2, g_height / 2)` and the start time
is 0. -/
theorem C11_initGame_resets (m m1 : Machine) (h : StartsGame m m1) :
    (∀ c, c < m1.g_gridsize → m1.g_state.getD c STATE_VISIBLE = STATE_HIDDEN) ∧
    m1.g_flagged = 0 ∧ m1.g_selx = m1.g_width / 2 ∧ m1.g_sely = m1.g_height / 2 ∧
    m1.g_starttime = 0 := by
  obtain ⟨ks, lg, h1⟩ := startsGame_initGame m m1 h
  exact initGame_resets _ m1 h1

/-- Claim C11 on the 3 by 3 board, which starts with flagged cells, a count of 3,
the cursor in a corner and a start time of 7. -/
theorem C11_initGame_resets_witness :
    StartsGame demoBoot demoGame ∧ demoBoot.g_flagged = 3 ∧ demoBoot.g_starttime = 7 ∧
    (∀ c, c < demoGame.g_gridsize → demoGame.g_state.getD c STATE_VISIBLE = STATE_HIDDEN) ∧
    demoGame.g_flagged = 0 ∧ demoGame.g_selx = demoGame.g_width / 2 ∧
    demoGame.g_sely = demoGame.g_height / 2 ∧ demoGame.g_starttime = 0 :=
  ⟨Or.inl demo_initGame, rfl, rfl, C11_initGame_resets demoBoot demoGame (Or.inl demo_initGame)⟩

/-- Claim C12: in every state reachable from `initGame` by iterations of the game
loop the cursor is inside the grid, `g_selx < g_width` and `g_sely < g_height`, so
the index `SEL2IDX` passed to `flag` and `show` is below `g_width * g_height`. -/
theorem C12_cursor_in_grid (m : Machine) (h : Reachable m) :
    m.g_selx < m.g_width ∧ m.g_sely < m.g_height ∧
    SEL2IDX m < m.g_width * m.g_height := by
  have hinv := reachable_inv m h
  have hlt := SEL2IDX_lt m hinv
  rw [hinv.1.2.2.1] at hlt
  exact ⟨hinv.2.1, hinv.2.2.1, hlt⟩

/-- Claim C12 on the 3 by 3 board after the key `f`. -/
theorem C12_cursor_in_grid_witness :
    Reachable demoFlagged ∧ demoFlagged.g_selx < demoFlagged.g_width ∧
    demoFlagged.g_sely < demoFlagged.g_height ∧
    SEL2IDX demoFlagged < demoFlagged.g_width * demoFlagged.g_height :=
  ⟨demo_reachable, C12_cursor_in_grid demoFlagged demo_reachable⟩

/-- Claim C13 fails as stated: on the 3 by 3 board just generated (start time 0,
clock 5, not won) handling the left key, and so the loop iteration that handles it,
moves the cursor from column 1 to column 0 and also sets the start time to 5. -/
theorem C13_counterexample :
    demoGame.g_starttime = 0 ∧
    runGame_key 1 { demoGame with keys := [key_t.KEY_LEFT] } =
      some (Outcome.ret { demoGame with keys := [], g_selx := 0, g_starttime := 5 }) ∧
    runGame_iter 1 { demoGame with keys := [key_t.KEY_LEFT] } =
      some (Outcome.ret { demoGame with keys := [], g_selx := 0, g_starttime := 5 }) := by
  decide

/-- Claim C13, amended: with the cursor inside the grid, handling a cursor-move key
in the game loop returns a state that differs from the state before only in the key
read, the cursor and the start time: the grid, the visibility array, `g_flagged`,
the dimensions, the mine count, the random values, the clock and the log are
unchanged.  The cursor stays inside the grid and moves by at most one cell along
one axis; the start time is unchanged when it was set, and is set to the clock when
it was unset (0).  In a state that is not won this is the whole loop iteration. -/
theorem C13_cursor_key (fuel : Nat) (m : Machine) (c : key_t) (ks : List key_t)
    (hkeys : m.keys = c :: ks)
    (hc : c = key_t.KEY_UP ∨ c = key_t.KEY_DOWN ∨ c = key_t.KEY_LEFT ∨ c = key_t.KEY_RIGHT)
    (hx : m.g_selx < m.g_width) (hy : m.g_sely < m.g_height) :
    ∃ m1, runGame_key fuel m = some (Outcome.ret m1) ∧
      (check_win m = false → runGame_iter fuel m = some (Outcome.ret m1)) ∧
      m1 = { m with
        keys := ks
        g_selx := m1.g_selx
        g_sely := m1.g_sely
        g_starttime := if m.g_starttime = 0 then m.now else m.g_starttime } ∧
      m1.g_grid = m.g_grid ∧ m1.g_state = m.g_state ∧ m1.g_flagged = m.g_flagged ∧
      m1.g_width = m.g_width ∧ m1.g_height = m.g_height ∧
      m1.g_starttime = (if m.g_starttime = 0 then m.now else m.g_starttime) ∧
      m1.g_selx < m.g_width ∧ m1.g_sely < m.g_height ∧
      ((m1.g_selx = m.g_selx ∧ m1.g_sely ≤ m.g_sely + 1 ∧ m.g_sely ≤ m1.g_sely + 1) ∨
       (m1.g_sely = m.g_sely ∧ m1.g_selx ≤ m.g_selx + 1 ∧ m.g_selx ≤ m1.g_selx + 1)) := by
  have hq : c ≠ key_t.chr 113 := by
    rcases hc with h | h | h | h <;> rw [h] <;> decide
  have hiter : ∀ m1, runGame_key fuel m = some (Outcome.ret m1) →
      check_win m = false → runGame_iter fuel m = some (Outcome.ret m1) :=
    fun m1 h1 hwin => (runGame_iter_not_won fuel m hwin).trans h1
  have key : ∃ m1, runGame_key fuel m = some (Outcome.ret m1) ∧
      m1 = { m with
        keys := ks
        g_selx := m1.g_selx
        g_sely := m1.g_sely
        g_starttime := if m.g_starttime = 0 then m.now else m.g_starttime } ∧
      m1.g_grid = m.g_grid ∧ m1.g_state = m.g_state ∧ m1.g_flagged = m.g_flagged ∧
      m1.g_width = m.g_width ∧ m1.g_height = m.g_height ∧
      m1.g_starttime = (if m.g_starttime = 0 then m.now else m.g_starttime) ∧
      m1.g_selx < m.g_width ∧ m1.g_sely < m.g_height ∧
      ((m1.g_selx = m.g_selx ∧ m1.g_sely ≤ m.g_sely + 1 ∧ m.g_sely ≤ m1.g_sely + 1) ∨
       (m1.g_sely = m.g_sely ∧ m1.g_selx ≤ m.g_selx + 1 ∧ m.g_selx ≤ m1.g_selx + 1)) := by
    rw [runGame_key_cons fuel m c ks hkeys hq]
    rcases hc with h | h | h | h <;> subst h <;> simp only [runGame_switch]
    · refine ⟨_, rfl, ?_⟩
      split_ifs <;> dsimp only <;>
        refine ⟨rfl, rfl, rfl, rfl, rfl, rfl, rfl, ?_, ?_, ?_⟩ <;> omega
    · refine ⟨_, rfl, ?_⟩
      split_ifs <;> dsimp only <;>
        refine ⟨rfl, rfl, rfl, rfl, rfl, rfl, rfl, ?_, ?_, ?_⟩ <;> omega
    · refine ⟨_, rfl, ?_⟩
      split_ifs <;> dsimp only <;>
        refine ⟨rfl, rfl, rfl, rfl, rfl, rfl, rfl, ?_, ?_, ?_⟩ <;> omega
    · refine ⟨_, rfl, ?_⟩
      split_ifs <;> dsimp only <;>
        refine ⟨rfl, rfl, rfl, rfl, rfl, rfl, rfl, ?_, ?_, ?_⟩ <;> omega
  obtain ⟨m1, h1, h2⟩ := key
  exact ⟨m1, h1, hiter m1 h1, h2⟩

/-- Claim C13, amended, on the 3 by 3 board after the key `f`, whose start time is
already set: the left key moves the cursor and nothing else. -/
theorem C13_cursor_key_witness :
    demoFlagged.g_starttime = 5 ∧
    ∃ m1, runGame_key 1 demoFlagged = some (Outcome.ret m1) ∧
      (check_win demoFlagged = false → runGame_iter 1 demoFlagged = some (Outcome.ret m1)) ∧
      m1 = { demoFlagged with
        keys := [key_t.chr 99]
        g_selx := m1.g_selx
        g_sely := m1.g_sely
        g_starttime :=
          if demoFlagged.g_starttime = 0 then demoFlagged.now else demoFlagged.g_starttime } ∧
      m1.g_grid = demoFlagged.g_grid ∧ m1.g_state = demoFlagged.g_state ∧
      m1.g_flagged = demoFlagged.g_flagged ∧
      m1.g_width = demoFlagged.g_width ∧ m1.g_height = demoFlagged.g_height ∧
      m1.g_starttime =
        (if demoFlagged.g_starttime = 0 then demoFlagged.now else demoFlagged.g_starttime) ∧
      m1.g_selx < demoFlagged.g_width ∧ m1.g_sely < demoFlagged.g_height ∧
      ((m1.g_selx = demoFlagged.g_selx ∧ m1.g_sely ≤ demoFlagged.g_sely + 1 ∧
          demoFlagged.g_sely ≤ m1.g_sely + 1) ∨
       (m1.g_sely = demoFlagged.g_sely ∧ m1.g_selx ≤ demoFlagged.g_selx + 1 ∧
          demoFlagged.g_selx ≤ m1.g_selx + 1)) :=
  ⟨rfl,
    C13_cursor_key 1 demoFlagged key_t.KEY_LEFT [key_t.chr 99] rfl
      (Or.inr (Or.inr (Or.inl rfl))) (by decide) (by decide)⟩

/-- Claim C14: on a grid satisfying the adjacency invariant, for every visibility
state and every cell `idx` that is not a mine, `show(idx)` terminates: one result
is returned for every fuel above the number of hidden cells, and it differs from
the state before in the visibility array only.  Every cell keeps its visibility or
goes from hidden to visible, the number of hidden cells does not grow, and it
strictly decreases when `idx` passes the hidden guard.  The statement holds for
every visibility state, hence for every call of the recursion. -/
theorem C14_show_terminates (m : Machine) (idx : Nat) (hadj : AdjInvariant m)
    (hidx : idx < m.g_gridsize) (hnm : m.g_grid.getD idx 0 ≠ MINE) :
    ∃ st1, (∀ fuel, hiddenCount m.g_gridsize m.g_state < fuel →
        show_idx fuel m idx = some (Outcome.ret { m with g_state := st1 })) ∧
      (∀ c, st1.getD c STATE_VISIBLE = m.g_state.getD c STATE_VISIBLE ∨
        (m.g_state.getD c STATE_VISIBLE = STATE_HIDDEN ∧
          st1.getD c STATE_VISIBLE = STATE_VISIBLE)) ∧
      hiddenCount m.g_gridsize st1 ≤ hiddenCount m.g_gridsize m.g_state ∧
      (m.g_state.getD idx STATE_VISIBLE = STATE_HIDDEN →
        hiddenCount m.g_gridsize st1 < hiddenCount m.g_gridsize m.g_state) := by
  obtain ⟨st1, e, ok⟩ := show_idx_flood_all m (adjInvariant_gridOK m hadj) idx hidx hnm
  exact ⟨st1, e, ok.1, hiddenCount_mono _ ok.1, fun hh => ok.fewer_hidden hidx hh⟩

/-- Claim C14 on the 3 by 3 board with the centre flagged, for `show` on the blank
corner 2. -/
theorem C14_show_terminates_witness :
    AdjInvariant demoFlagged ∧
    ∃ st1, (∀ fuel, hiddenCount demoFlagged.g_gridsize demoFlagged.g_state < fuel →
        show_idx fuel demoFlagged 2 =
          some (Outcome.ret { demoFlagged with g_state := st1 })) ∧
      (∀ c, st1.getD c STATE_VISIBLE = demoFlagged.g_state.getD c STATE_VISIBLE ∨
        (demoFlagged.g_state.getD c STATE_VISIBLE = STATE_HIDDEN ∧
          st1.getD c STATE_VISIBLE = STATE_VISIBLE)) ∧
      hiddenCount demoFlagged.g_gridsize st1 ≤
        hiddenCount demoFlagged.g_gridsize demoFlagged.g_state ∧
      (demoFlagged.g_state.getD 2 STATE_VISIBLE = STATE_HIDDEN →
        hiddenCount demoFlagged.g_gridsize st1 <
          hiddenCount demoFlagged.g_gridsize demoFlagged.g_state) :=
  ⟨demo_adjInvariant,
    C14_show_terminates demoFlagged 2 demo_adjInvariant (by decide) (by decide)⟩

/-- Claim C15: for every width, height and mine count with `g_minecount` at most
half the cells, the placement loop of `initGame` terminates.  The loop ends, and
`initGame` returns, exactly on the sequences of `rand()` values that draw at least
`g_minecount` distinct cells; with the uniform random source of the specification
the share of the sequences of `n` draws on which it has not ended is at most
`2 ^ size / 2 ^ n`, so it ends with probability 1, and the expected number of draws
is at most `size + 2`. -/
theorem C15_placement_terminates (m : Machine)
    (hsize : m.g_gridsize = m.g_width * m.g_height)
    (hlen : m.g_grid.length = m.g_gridsize)
    (hm : m.g_minecount ≤ ((m.g_width * m.g_height / 2 : Nat) : Int)) :
    (∀ rands : List Nat, (∃ m1, initGame { m with rands := rands } = Outcome.ret m1) ↔
      m.g_minecount ≤ ((drawnCells m.g_gridsize rands).card : Int)) ∧
    (∀ n, 2 ^ n * (stalled m n).card ≤ 2 ^ m.g_gridsize * m.g_gridsize ^ n) ∧
    (∀ N, ∑ n in Finset.range N, ((stalled m n).card : ℚ) / (m.g_gridsize : ℚ) ^ n ≤
      (m.g_gridsize : ℚ) + 2) :=
  ⟨fun rands => initGame_returns_iff { m with rands := rands } hsize hlen,
    card_stalled m hsize hlen hm, sum_stalled m hsize hlen hm⟩

/-- Claim C15 on the 9 by 9 board with 10 mines: `initGame` returns on the eleven
values drawn, which hit ten distinct cells, and of the sequences of 100 uniform
draws at most the share `2 ^ 81 / 2 ^ 100` leaves the loop unfinished. -/
theorem C15_placement_terminates_witness :
    easyBoot.g_minecount ≤ ((easyBoot.g_width * easyBoot.g_height / 2 : Nat) : Int) ∧
    (∃ m1, initGame easyBoot = Outcome.ret m1) ∧
    2 ^ 100 * (stalled easyBoot 100).card ≤
      2 ^ easyBoot.g_gridsize * easyBoot.g_gridsize ^ 100 :=
  ⟨by decide,
    ((C15_placement_terminates easyBoot rfl rfl (by decide)).1 easyBoot.rands).mpr (by decide),
    (C15_placement_terminates easyBoot rfl rfl (by decide)).2.1 100⟩

/-- Claim C16: on a grid satisfying the adjacency invariant, for every visibility
state and every hidden cell `idx` that is not a mine, `show(idx)` returns and the
cells whose visibility it changes are exactly the hidden cells reached from `idx`
by a path of neighbouring cells on which every cell but the last is blank and
hidden; each of them becomes visible; a cell that was not hidden (flagged, unsure or
visible) keeps its visibility; `idx` itself becomes visible, and is the only cell
changed when it is numbered. -/
theorem C16_flood_exact (m : Machine) (idx : Nat) (hadj : AdjInvariant m)
    (hidx : idx < m.g_gridsize) (hnm : m.g_grid.getD idx 0 ≠ MINE)
    (hh : m.g_state.getD idx STATE_VISIBLE = STATE_HIDDEN) :
    ∃ st1, (∀ fuel, hiddenCount m.g_gridsize m.g_state < fuel →
        show_idx fuel m idx = some (Outcome.ret { m with g_state := st1 })) ∧
      (∀ c, st1.getD c STATE_VISIBLE ≠ m.g_state.getD c STATE_VISIBLE ↔
        (m.g_state.getD c STATE_VISIBLE = STATE_HIDDEN ∧
          FloodReach m.g_width m.g_gridsize m.g_grid m.g_state idx c)) ∧
      (∀ c, st1.getD c STATE_VISIBLE ≠ m.g_state.getD c STATE_VISIBLE →
        st1.getD c STATE_VISIBLE = STATE_VISIBLE) ∧
      (∀ c, m.g_state.getD c STATE_VISIBLE ≠ STATE_HIDDEN →
        st1.getD c STATE_VISIBLE = m.g_state.getD c STATE_VISIBLE) ∧
      st1.getD idx STATE_VISIBLE = STATE_VISIBLE ∧
      (m.g_grid.getD idx 0 ≠ BLANK →
        ∀ c, st1.getD c STATE_VISIBLE ≠ m.g_state.getD c STATE_VISIBLE ↔ c = idx) := by
  obtain ⟨st1, e, ok⟩ := show_idx_flood_all m (adjInvariant_gridOK m hadj) idx hidx hnm
  refine ⟨st1, e, ok.changed_iff, fun c hc => (ok.changed hc).2.1, ?_,
    ok.reached FloodReach.base hh, ?_⟩
  · intro c hc
    by_contra hne
    exact hc (ok.changed hne).1
  · intro hnb c
    rw [ok.changed_iff]
    constructor
    · rintro ⟨-, hr⟩
      exact floodReach_numbered hnb hr
    · intro e1
      rw [e1]
      exact ⟨hh, FloodReach.base⟩

/-- Claim C16 on the 9 by 9 board with cell 59 flagged, for `show` on the blank
cell 58 next to it. -/
theorem C16_flood_exact_witness :
    AdjInvariant (flag easyGame 59) ∧
    (flag easyGame 59).g_state.getD 58 STATE_VISIBLE = STATE_HIDDEN ∧
    ∃ st1, (∀ fuel,
        hiddenCount (flag easyGame 59).g_gridsize (flag easyGame 59).g_state < fuel →
        show_idx fuel (flag easyGame 59) 58 =
          some (Outcome.ret { flag easyGame 59 with g_state := st1 })) ∧
      (∀ c, st1.getD c STATE_VISIBLE ≠ (flag easyGame 59).g_state.getD c STATE_VISIBLE ↔
        ((flag easyGame 59).g_state.getD c STATE_VISIBLE = STATE_HIDDEN ∧
          FloodReach (flag easyGame 59).g_width (flag easyGame 59).g_gridsize
            (flag easyGame 59).g_grid (flag easyGame 59).g_state 58 c)) ∧
      (∀ c, st1.getD c STATE_VISIBLE ≠ (flag easyGame 59).g_state.getD c STATE_VISIBLE →
        st1.getD c STATE_VISIBLE = STATE_VISIBLE) ∧
      (∀ c, (flag easyGame 59).g_state.getD c STATE_VISIBLE ≠ STATE_HIDDEN →
        st1.getD c STATE_VISIBLE = (flag easyGame 59).g_state.getD c STATE_VISIBLE) ∧
      st1.getD 58 STATE_VISIBLE = STATE_VISIBLE ∧
      ((flag easyGame 59).g_grid.getD 58 0 ≠ BLANK →
        ∀ c, st1.getD c STATE_VISIBLE ≠
          (flag easyGame 59).g_state.getD c STATE_VISIBLE ↔ c = 58) :=
  ⟨easy_adjInvariant, by decide,
    C16_flood_exact (flag easyGame 59) 58 easy_adjInvariant (by decide) (by decide) (by decide)⟩

/-- Claim C17: on a grid satisfying the adjacency invariant and for every
visibility state, `show(idx)` on a cell that is not a mine returns a state whose
grid, log (no `lost` message), random values and keys are those before the call, so
the grid was not generated again, and in which every mine has the visibility it
had; `flag` on any index leaves the grid and the log unchanged. -/
theorem C17_show_keeps_grid (m : Machine) (idx : Nat) (hadj : AdjInvariant m)
    (hidx : idx < m.g_gridsize) (hnm : m.g_grid.getD idx 0 ≠ MINE) :
    (∃ m1, (∀ fuel, hiddenCount m.g_gridsize m.g_state < fuel →
        show_idx fuel m idx = some (Outcome.ret m1)) ∧
      m1.g_grid = m.g_grid ∧ m1.log = m.log ∧ m1.rands = m.rands ∧ m1.keys = m.keys ∧
      ∀ c, m.g_grid.getD c 0 = MINE →
        m1.g_state.getD c STATE_VISIBLE = m.g_state.getD c STATE_VISIBLE) ∧
    ∀ k, (flag m k).g_grid = m.g_grid ∧ (flag m k).log = m.log := by
  have hg := adjInvariant_gridOK m hadj
  obtain ⟨st1, e, ok⟩ := show_idx_flood_all m hg idx hidx hnm
  refine ⟨⟨_, e, rfl, rfl, rfl, rfl, ?_⟩, ?_⟩
  · intro c hc
    by_contra hne
    exact floodReach_not_mine hg.2 hidx hnm (ok.changed hne).2.2 hc
  · intro k
    unfold flag
    split_ifs <;> exact ⟨rfl, rfl⟩

/-- Claim C17 on the 9 by 9 board `cornerGame`, for `show` on the centre cell. -/
theorem C17_show_keeps_grid_witness :
    AdjInvariant cornerGame ∧ cornerGame.g_grid.getD 40 0 ≠ MINE ∧
    ∃ m1, (∀ fuel, hiddenCount cornerGame.g_gridsize cornerGame.g_state < fuel →
        show_idx fuel cornerGame 40 = some (Outcome.ret m1)) ∧
      m1.g_grid = cornerGame.g_grid ∧ m1.log = cornerGame.log ∧
      m1.rands = cornerGame.rands ∧ m1.keys = cornerGame.keys ∧
      ∀ c, cornerGame.g_grid.getD c 0 = MINE →
        m1.g_state.getD c STATE_VISIBLE = cornerGame.g_state.getD c STATE_VISIBLE :=
  ⟨corner_adjInvariant, by decide,
    (C17_show_keeps_grid cornerGame 40 corner_adjInvariant (by decide) (by decide)).1⟩

/-- Claim C18: for every cell `idx` of a grid of `w * h` cells (so `w >= 1` and
`h >= 1`), the arguments of the calls `show(idx)` makes (`showTargets`, which is the
list of calls the blank case runs) and the cells whose count the placement of a
mine at `idx` increments (`mineTargets`) are below `w * h` and are `idx` itself or
lattice neighbours of `idx`, whose columns differ from that of `idx` by at most 1;
`flag(idx)` writes the visibility of `idx` only, and placing a mine at `idx` writes
`idx` and cells of `mineTargets` only. -/
theorem C18_indices_in_grid (w h idx : Nat) (hidx : idx < w * h) :
    (∀ k, k ∈ showTargets w h idx → k < w * h ∧ (k = idx ∨ nbr w idx k)) ∧
    (∀ k, k ∈ mineTargets w h idx → k < w * h ∧ nbr w idx k) ∧
    (∀ (fuel : Nat) (m : Machine), m.g_state.getD idx STATE_VISIBLE = STATE_HIDDEN →
      m.g_grid.getD idx 0 = BLANK →
      show_idx (fuel + 1) m idx =
        callEach (show_idx fuel) (showTargets m.g_width m.g_height idx)
          { m with g_state := m.g_state.set idx STATE_VISIBLE }) ∧
    (∀ (m : Machine) (c : Nat), c ≠ idx →
      (flag m idx).g_state.getD c STATE_VISIBLE = m.g_state.getD c STATE_VISIBLE) ∧
    (∀ (grid : List Nat) (i : Int) (c : Nat), c ≠ idx → c ∉ mineTargets w h idx →
      (placeStep w h grid i idx).1.getD c 0 = grid.getD c 0) := by
  refine ⟨?_, ?_, ?_, ?_, ?_⟩
  · intro k hk
    rcases (mem_showTargets w h idx k hidx).mp hk with e | ⟨h1, h2⟩
    · rw [e]; exact ⟨hidx, Or.inl rfl⟩
    · exact ⟨h1, Or.inr h2⟩
  · intro k hk
    exact (mem_mineTargets w h idx k hidx).mp hk
  · intro fuel m hh hb
    rw [show_idx]
    simp only [hh, hb, if_true]
    rw [if_neg (by decide)]
  · intro m c hc
    unfold flag
    split_ifs
    · exact getD_set_ne _ _ _ _ _ (fun e => hc e.symm)
    · exact getD_set_ne _ _ _ _ _ (fun e => hc e.symm)
    · rfl
  · intro grid i c hc hcT
    unfold placeStep
    split_ifs
    · rfl
    · simp only
      rw [getD_foldl_bump _ (nodup_mineTargets w h idx hidx), if_neg (fun hh => hcT hh.1)]
      exact getD_set_ne _ _ _ _ _ (fun e => hc e.symm)

/-- Claim C18 at the end of the first row of a 9 by 9 grid: cell 8 has three
neighbours, 7, 16 and 17, and cell 9, which starts the next row, is not among the
cells touched. -/
theorem C18_indices_in_grid_witness :
    (8 < 9 * 9) ∧ showTargets 9 9 8 = [8, 17, 7, 16] ∧ mineTargets 9 9 8 = [7, 16, 17] ∧
    (∀ k, k ∈ showTargets 9 9 8 → k < 9 * 9 ∧ (k = 8 ∨ nbr 9 8 k)) ∧
    (∀ k, k ∈ mineTargets 9 9 8 → k < 9 * 9 ∧ nbr 9 8 k) :=
  ⟨by decide, by decide, by decide, (C18_indices_in_grid 9 9 8 (by decide)).1,
    (C18_indices_in_grid 9 9 8 (by decide)).2.1⟩

set_option maxRecDepth 100000 in
/-- Claim C19 fails as stated: the 9 by 9 board `rowGame` satisfies the adjacency
invariant, has 10 mines (the first row and the first cell of the second row), its
centre cell 40 is blank and every cell is hidden; `show` on the centre reveals all
71 cells that are not mines, and `check_win` is true afterwards. -/
theorem C19_counterexample :
    AdjInvariant rowGame ∧ rowGame.g_width = 9 ∧ rowGame.g_height = 9 ∧
    mineCells rowGame.g_grid = 10 ∧ rowGame.g_grid.getD 40 0 = BLANK ∧
    (∀ c, c < 81 → rowGame.g_state.getD c STATE_VISIBLE = STATE_HIDDEN) ∧
    checkWinAfter (show_idx 82 rowGame 40) = some true :=
  ⟨row_adjInvariant, rfl, rfl, by decide, by decide, by decide, by decide⟩

/-- Claim C19, amended: on a grid satisfying the adjacency invariant (such as a
9 by 9 grid with 10 mines) with every cell hidden, `show` on a blank cell (such as
the centre) returns with the log and the grid unchanged, so no loss is signalled;
`check_win` is false afterwards exactly when some cell that is not a mine lies
outside the blank region of that cell and the numbered cells next to it, and is
true (the game is won by this single reveal) otherwise. -/
theorem C19_first_reveal (m : Machine) (idx : Nat) (hadj : AdjInvariant m)
    (hidx : idx < m.g_gridsize) (hb : m.g_grid.getD idx 0 = BLANK)
    (hall : ∀ c, c < m.g_gridsize → m.g_state.getD c STATE_VISIBLE = STATE_HIDDEN) :
    ∃ m1, (∀ fuel, m.g_gridsize < fuel → show_idx fuel m idx = some (Outcome.ret m1)) ∧
      m1.log = m.log ∧ m1.g_grid = m.g_grid ∧
      (check_win m1 = false ↔
        ∃ c, c < m.g_gridsize ∧ m.g_grid.getD c 0 ≠ MINE ∧ ¬ RevealSet m idx c) := by
  obtain ⟨st1, e, h1, h2⟩ := show_idx_region m idx hadj hidx hb
    (fun b hb1 => hall b hb1.blank.1)
  refine ⟨_, fun fuel hf => e fuel (Nat.lt_of_le_of_lt (hiddenCount_le _ _) hf), rfl, rfl, ?_⟩
  rw [Bool.eq_false_iff, Ne, check_win_iff]
  constructor
  · intro hn
    push_neg at hn
    obtain ⟨c, hc, hcm, hv⟩ := hn
    refine ⟨c, hc, hcm, ?_⟩
    intro hr
    exact hv (h1 c hr (hall c hc))
  · rintro ⟨c, hc, hcm, hr⟩ hw
    have := hw c hc hcm
    simp only at this
    rw [h2 c (fun hh => hr hh.1), hall c hc] at this
    cases this

set_option maxRecDepth 100000 in
/-- Claim C19, amended, on the 9 by 9 board `cornerGame` with 10 mines: the centre
cell is blank and every cell is hidden. -/
theorem C19_first_reveal_witness :
    AdjInvariant cornerGame ∧ mineCells cornerGame.g_grid = 10 ∧
    cornerGame.g_grid.getD 40 0 = BLANK ∧
    ∃ m1, (∀ fuel, cornerGame.g_gridsize < fuel →
        show_idx fuel cornerGame 40 = some (Outcome.ret m1)) ∧
      m1.log = cornerGame.log ∧ m1.g_grid = cornerGame.g_grid ∧
      (check_win m1 = false ↔
        ∃ c, c < cornerGame.g_gridsize ∧ cornerGame.g_grid.getD c 0 ≠ MINE ∧
          ¬ RevealSet cornerGame 40 c) :=
  ⟨corner_adjInvariant, by decide, by decide,
    C19_first_reveal cornerGame 40 corner_adjInvariant (by decide) (by decide) (by decide)⟩

/-- Claim C20: when the mine count is between 1 and half the number of cells (the
grid then has at least 2 cells), `check_win` is false in the state `initGame`
returns, whether `initGame` is called at start-up, after `lose` or after `win`. -/
theorem C20_fresh_game_not_won (m m1 : Machine)
    (hsize : m.g_gridsize = m.g_width * m.g_height)
    (hlen : m.g_grid.length = m.g_gridsize) (h1 : 1 ≤ m.g_minecount)
    (h2 : m.g_minecount ≤ ((m.g_width * m.g_height / 2 : Nat) : Int))
    (h : StartsGame m m1) : check_win m1 = false := by
  obtain ⟨ks, lg, h3⟩ := startsGame_initGame m m1 h
  exact initGame_not_won { m with keys := ks, log := lg } m1 hsize hlen h1 h2 h3

/-- Claim C20 on the 9 by 9 board with 10 mines. -/
theorem C20_fresh_game_not_won_witness :
    StartsGame easyBoot easyGame ∧ (1 : Int) ≤ easyBoot.g_minecount ∧
    easyBoot.g_minecount ≤ ((easyBoot.g_width * easyBoot.g_height / 2 : Nat) : Int) ∧
    check_win easyGame = false :=
  ⟨Or.inl easy_initGame, by decide, by decide,
    C20_fresh_game_not_won easyBoot easyGame rfl rfl (by decide) (by decide)
      (Or.inl easy_initGame)⟩

end Minesweeper
